import Mathlib

/-!
A shallow embedding of `src/toonConverter.ts` — the TOON value
normalizer and encoder — together with proofs of the specified
properties. Host-language (JS) values are modelled by the inductive
`Host`; canonical JSON values by `Json`. A finite float64 is
represented by the string the host formatter `String(n)` yields for it
(that formatter is injective on float64, so this is a faithful
quotient); the distinguished values NaN, ±Infinity and -0, which the
source inspects with `Number.isFinite` and `Object.is(n, -0)`, are
separate constructors.
-/

namespace Toon

/-- A JS `number` as the converter observes it: the non-finite values,
negative zero, or a finite value carried as its `String(n)` rendering. -/
inductive JSNumber where
  | nan
  | posInf
  | negInf
  | negZero
  | finite (repr : String)
deriving DecidableEq, Repr

/-- The canonical value tree (`type Json` in the source). -/
inductive Json where
  | null
  | bool (b : Bool)
  | num (n : JSNumber)
  | str (s : String)
  | arr (elems : List Json)
  | obj (fields : List (String × Json))
deriving Repr

/-- A host (JS) value as seen by `normalize`: the JSON-compatible
values plus the non-JSON runtime values the source dispatches on
(`undefined`, bigint, function, symbol, `Date`, and any other non-plain
object, carried with the string its `String(...)`/`toISOString()`
conversion yields). -/
inductive Host where
  | hnull
  | hbool (b : Bool)
  | hnum (n : JSNumber)
  | hstr (s : String)
  | hundef
  | hbigint (decRepr : String)
  | hfunc
  | hsym
  | hdate (iso : String)
  | harr (elems : List Host)
  | hobj (fields : List (String × Host))
  | hother (strRepr : String)
deriving Repr

/-! ## Character classes and small string helpers -/

/-- The character set JS `String.prototype.trim` removes: the WhiteSpace
and LineTerminator productions of ECMA-262. -/
def jsWhitespaceChar (c : Char) : Bool :=
  let n := c.toNat
  decide ((9 ≤ n ∧ n ≤ 13) ∨ n = 32 ∨ n = 160 ∨ n = 0x1680 ∨
    (0x2000 ≤ n ∧ n ≤ 0x200a) ∨ n = 0x2028 ∨ n = 0x2029 ∨ n = 0x202f ∨
    n = 0x205f ∨ n = 0x3000 ∨ n = 0xfeff)

/-- `s.trim()` on the character list. -/
def jsTrimL (l : List Char) : List Char :=
  ((l.dropWhile jsWhitespaceChar).reverse.dropWhile jsWhitespaceChar).reverse

/-- `s.trim()`. -/
def jsTrim (s : String) : String := ⟨jsTrimL s.data⟩

/-! ## `looksLikeNumber` — the regex `^-?(0|[1-9]\d*)(\.\d+)?([eE][+-]?\d+)?$`,
as a deterministic matcher (the regex backtracks nowhere on this pattern). -/

/-- Consume `(0|[1-9]\d*)`: a literal `0`, or a nonzero digit followed by
any digits. Returns the rest of the input on success. -/
def matchIntRest : List Char → Option (List Char)
  | [] => none
  | c :: rest =>
    if c = '0' then some rest
    else if c.isDigit then some (rest.dropWhile Char.isDigit)
    else none

/-- Consume the optional `(\.\d+)?` group. -/
def matchFracRest : List Char → Option (List Char)
  | '.' :: rest =>
    match rest with
    | d :: _ => if d.isDigit then some (rest.dropWhile Char.isDigit) else none
    | [] => none
  | l => some l

/-- Match the optional `([eE][+-]?\d+)?` group against the whole rest. -/
def matchExpEnd : List Char → Bool
  | [] => true
  | c :: rest =>
    if c = 'e' ∨ c = 'E' then
      let rest2 := match rest with
        | s :: r => if s = '+' ∨ s = '-' then r else s :: r
        | [] => []
      match rest2 with
      | [] => false
      | d :: _ => d.isDigit && (rest2.dropWhile Char.isDigit).isEmpty
    else false

/-- `looksLikeNumber` from the source. -/
def looksLikeNumber (s : String) : Bool :=
  let l := match s.data with
    | '-' :: rest => rest
    | l => l
  match matchIntRest l with
  | none => false
  | some r1 =>
    match matchFracRest r1 with
    | none => false
    | some r2 => matchExpEnd r2

/-- `needsQuotes` from the source, with the delimiter as the character
the call sites pass (always `","` or `"\t"`). -/
def needsQuotes (s : String) (delimiter : Char) : Bool :=
  if s.length = 0 then true
  else if s ≠ jsTrim s then true
  else if s = "true" ∨ s = "false" ∨ s = "null" then true
  else if looksLikeNumber s then true
  else if s = "-" ∨ s.data.head? = some '-' then true
  else if s.data.any (fun c => decide (c.toNat < 0x20)) then true
  else if s.data.contains '"' ∨ s.data.contains '\\' then true
  else if s.data.contains ':' then true
  else if s.data.contains delimiter then true
  else if s.data.contains ',' ∨ s.data.contains '\t' then true
  else false

/-- `String.prototype.replace` with a single-character global pattern
and a constant replacement, on character lists. -/
def replaceCharL (target : Char) (repl : List Char) : List Char → List Char
  | [] => []
  | c :: rest =>
    (if c = target then repl else [c]) ++ replaceCharL target repl rest

/-- `escapeQuoted` from the source: the five chained global replaces. -/
def escapeQuoted (s : String) : String :=
  ⟨replaceCharL '\t' ['\\', 't']
    (replaceCharL '\r' ['\\', 'r']
      (replaceCharL '\n' ['\\', 'n']
        (replaceCharL '"' ['\\', '"']
          (replaceCharL '\\' ['\\', '\\'] s.data))))⟩

/-- `encodeString` from the source. -/
def encodeString (s : String) (delimiter : Char) : String :=
  if needsQuotes s delimiter then "\"" ++ escapeQuoted s ++ "\"" else s

/-- `encodeKey` from the source. -/
def encodeKey (k : String) (delimiter : Char) : String :=
  encodeString k delimiter

/-! ## `encodeNumberCanonical` -/

/-- Whether the regex `(\.\d*?)0+$` matches: the string ends in one or
more `0`s and, scanning back over the trailing digits, the first
non-digit character reached is a `.`. -/
def fracZeroStrippable (l : List Char) : Bool :=
  match l.reverse with
  | c :: _ =>
    c == '0' &&
      (match l.reverse.dropWhile Char.isDigit with
       | '.' :: _ => true
       | _ => false)
  | [] => false

/-- `.replace(/(\.\d*?)0+$/, "$1")`: drop the trailing run of zeros of
the fractional part. -/
def stripFracZeros (l : List Char) : List Char :=
  if fracZeroStrippable l then (l.reverse.dropWhile (· == '0')).reverse else l

/-- `.replace(/\.$/, "")`: drop a trailing decimal point. -/
def stripDotEnd (l : List Char) : List Char :=
  match l.reverse with
  | '.' :: r => r.reverse
  | _ => l

/-- `.replace(/^0+(?=\d)/, "")`: drop each leading zero that is
followed by another digit. -/
def stripLeadingZeros : List Char → List Char
  | '0' :: c :: rest =>
    if c.isDigit then stripLeadingZeros (c :: rest) else '0' :: c :: rest
  | l => l

/-- The numeric value of a digit string, as `parseInt` reads it. -/
def digitsToNat (l : List Char) : Nat :=
  l.foldl (fun a c => a * 10 + (c.toNat - 48)) 0

/-- The `[+-]?` handling shared by the sign and the exponent groups:
consume a leading sign, reporting whether it was a minus. -/
def parseSignSplit (l : List Char) : Bool × List Char :=
  match l with
  | '-' :: r => (true, r)
  | '+' :: r => (false, r)
  | _ => (false, l)

/-- The regex `^([+-]?)(\d+)(?:\.(\d+))?[eE]([+-]?\d+)$` as a
deterministic parser: sign flag, integer digits, fraction digits, and
the exponent as `parseInt` yields it. -/
def parseSci (l : List Char) : Option (Bool × List Char × List Char × Int) :=
  let neg := (parseSignSplit l).1
  let l1 := (parseSignSplit l).2
  let ip := l1.takeWhile Char.isDigit
  let l2 := l1.dropWhile Char.isDigit
  if ip.isEmpty then none
  else
    let fracRest : Option (List Char × List Char) :=
      match l2 with
      | '.' :: r =>
        let f := r.takeWhile Char.isDigit
        if f.isEmpty then none else some (f, r.dropWhile Char.isDigit)
      | _ => some ([], l2)
    match fracRest with
    | none => none
    | some (fp, l3) =>
      match l3 with
      | c :: r =>
        if c = 'e' ∨ c = 'E' then
          let ed := ((parseSignSplit r).2).takeWhile Char.isDigit
          if ed.isEmpty ∨ ¬(((parseSignSplit r).2).dropWhile Char.isDigit).isEmpty
          then none
          else
            some (neg, ip, fp,
              if (parseSignSplit r).1 then -(digitsToNat ed : Int)
              else (digitsToNat ed : Int))
        else none
      | [] => none

/-- The final clean-up of an expanded mantissa: strip leading zeros and,
when a decimal point is present, trailing fractional zeros and a bare
trailing point (lines 168–170 of the source). -/
def finishExpanded (out : List Char) : List Char :=
  let o1 := stripLeadingZeros out
  if o1.contains '.' then stripDotEnd (stripFracZeros o1) else o1

/-- `encodeNumberCanonical` from the source. For a finite value the
argument string is what `String(n)` produced. -/
def encodeNumberCanonical (n : JSNumber) : String :=
  match n with
  | .nan | .posInf | .negInf => "null"
  | .negZero => "0"
  | .finite s =>
    let l := s.data
    if ¬(l.contains 'e' ∨ l.contains 'E') then
      if l.contains '.' then ⟨stripDotEnd (stripFracZeros l)⟩ else s
    else
      match parseSci l with
      | none => s
      | some (neg, ip, fp, exp) =>
        let sign : List Char := if neg then ['-'] else []
        let digits := ip ++ fp
        let newPos : Int := (ip.length : Int) + exp
        if newPos ≤ 0 then
          let stripped := digits.dropWhile (· == '0')
          if stripped.isEmpty then "0"
          else
            ⟨sign ++ finishExpanded
              ('0' :: '.' :: (List.replicate (-newPos).toNat '0' ++ stripped))⟩
        else if (digits.length : Int) ≤ newPos then
          ⟨sign ++ finishExpanded
            (digits ++ List.replicate (newPos - digits.length).toNat '0')⟩
        else
          ⟨sign ++ finishExpanded
            (digits.take newPos.toNat ++ '.' :: digits.drop newPos.toNat)⟩

/-- `encodePrimitive` from the source. The source types its argument as
`Primitive`; the sequence and mapping cases are unreachable there. -/
def encodePrimitive (v : Json) (delimiter : Char) : String :=
  match v with
  | .null => "null"
  | .bool b => if b then "true" else "false"
  | .num n => encodeNumberCanonical n
  | .str s => encodeString s delimiter
  | _ => ""

/-- `isPrimitive` from the source. -/
def isPrimitive : Json → Bool
  | .null | .bool _ | .num _ | .str _ => true
  | _ => false

/-! ## The normalizer -/

/-- `typeof x === "undefined"`. -/
def isUndef : Host → Bool
  | .hundef => true
  | _ => false

mutual

/-- `normalize` from the source. Strict mode (`sanitizeJs = false`)
rejects non-finite numbers and every value outside the JSON space;
sanitize mode coerces them. The dispatch order follows the source. -/
def normalize (input : Host) (sanitizeJs : Bool) : Except String Json :=
  match sanitizeJs with
  | false =>
    match input with
    | .hnull => .ok .null
    | .hbool b => .ok (.bool b)
    | .hstr s => .ok (.str s)
    | .hnum n =>
      match n with
      | .nan | .posInf | .negInf => .error "Non-finite number in strict mode"
      | .negZero => .ok (.num (.finite "0"))
      | .finite r => .ok (.num (.finite r))
    | .harr xs => (normalizeList xs false).map Json.arr
    | .hobj fs => (normalizeFields fs false).map Json.obj
    | .hundef => .error "Non-JSON type in strict mode: undefined"
    | .hbigint _ => .error "Non-JSON type in strict mode: bigint"
    | .hfunc => .error "Non-JSON type in strict mode: function"
    | .hsym => .error "Non-JSON type in strict mode: symbol"
    | .hdate _ => .error "Non-JSON type in strict mode: object"
    | .hother _ => .error "Non-JSON type in strict mode: object"
  | true =>
    match input with
    | .hnull => .ok .null
    | .hbool b => .ok (.bool b)
    | .hstr s => .ok (.str s)
    | .hnum n =>
      match n with
      | .nan | .posInf | .negInf => .ok .null
      | .negZero => .ok (.num (.finite "0"))
      | .finite r => .ok (.num (.finite r))
    | .hbigint d => .ok (.str d)
    | .hundef => .ok .null
    | .hfunc => .ok .null
    | .hsym => .ok .null
    | .hdate iso => .ok (.str iso)
    | .harr xs => (normalizeList xs true).map Json.arr
    | .hobj fs => (normalizeFields fs true).map Json.obj
    | .hother r => .ok (.str r)
termination_by structural input

/-- Element-wise normalization of a sequence. In sanitize mode a
missing (`undefined`) element becomes `null` before recursion, keeping
index alignment; in strict mode it reaches `normalize` and fails there. -/
def normalizeList (xs : List Host) (sanitizeJs : Bool) :
    Except String (List Json) :=
  match xs with
  | [] => .ok []
  | x :: rest =>
    if sanitizeJs && isUndef x then
      (normalizeList rest sanitizeJs).map (Json.null :: ·)
    else do
      let j ← normalize x sanitizeJs
      let js ← normalizeList rest sanitizeJs
      .ok (j :: js)
termination_by structural xs

/-- Field-wise normalization of a mapping. In sanitize mode a field
whose value is `undefined` is omitted entirely. -/
def normalizeFields (fs : List (String × Host)) (sanitizeJs : Bool) :
    Except String (List (String × Json)) :=
  match fs with
  | [] => .ok []
  | (k, v) :: rest =>
    if sanitizeJs && isUndef v then normalizeFields rest sanitizeJs
    else do
      let j ← normalize v sanitizeJs
      let js ← normalizeFields rest sanitizeJs
      .ok ((k, j) :: js)
termination_by structural fs

end

/-! ## Array layout machinery -/

/-- The three layout strategies. -/
inductive ArrayKind where
  | inline
  | tabular
  | list
deriving DecidableEq, Repr

/-- The transient record `EncodedArray` from the source. The source
leaves `tabularFields` absent for non-tabular layouts; here it is `[]`. -/
structure EncodedArray where
  kind : ArrayKind
  header : String
  body : String
  delimiter : Char
  tabularFields : List String
deriving Repr

/-- A one-character string. -/
def charStr (c : Char) : String := ⟨[c]⟩

/-- `indentStr` from the source: `" ".repeat(level * indentSize)`. -/
def indentStr (level indentSize : Nat) : String :=
  ⟨List.replicate (level * indentSize) ' '⟩

/-- `chooseDelimiterForValues` from the source: the first string value
containing a literal comma switches the delimiter to tab. -/
def chooseDelimiterForValues : List Json → Char
  | [] => ','
  | v :: rest =>
    match v with
    | .str s => if s.data.contains ',' then '\t' else chooseDelimiterForValues rest
    | _ => chooseDelimiterForValues rest

/-- `Object.keys` of a mapping, in insertion order. -/
def objKeys (o : List (String × Json)) : List String := o.map Prod.fst

/-- Property access `o[k]`: `none` models `undefined`. -/
def getField (o : List (String × Json)) (k : String) : Option Json :=
  (o.find? (fun p => p.1 == k)).map Prod.snd

/-- `isPrimitive(o[k])`: JS `isPrimitive(undefined)` is `false`. -/
def isPrimitiveOpt : Option Json → Bool
  | some v => isPrimitive v
  | none => false

/-- The mapping fields of a value, when it is a mapping. -/
def objFieldsOf : Json → Option (List (String × Json))
  | .obj o => some o
  | _ => none

/-- `isPlainObject` restricted to canonical values. -/
def isObjJson (v : Json) : Bool := (objFieldsOf v).isSome

/-- `sameKeySet` from the source: every row must have as many keys as
the first row and each of its keys must occur among the first row's;
on success the first row's keys are returned in their order. -/
def sameKeySet (objs : List (List (String × Json))) : Bool × List String :=
  match objs with
  | [] => (true, [])
  | o0 :: rest =>
    let keys0 := objKeys o0
    if rest.all (fun o =>
        ((objKeys o).length == keys0.length) && (objKeys o).all (keys0.contains ·))
    then (true, keys0) else (false, [])

/-- `s.split("\n")` on character lists. -/
def splitLines : List Char → List (List Char)
  | [] => [[]]
  | c :: rest =>
    if c = '\n' then [] :: splitLines rest
    else
      match splitLines rest with
      | l :: ls => (c :: l) :: ls
      | [] => [[c]]

/-- `lines.join("\n")` on character lists. -/
def joinLines (ls : List (List Char)) : List Char :=
  List.intercalate ['\n'] ls

/-- `reindentBlock` from the source: prefix every non-empty line. -/
def reindentBlock (block : String) (addIndentLevels indentSize : Nat) : String :=
  if block = "" then ""
  else
    ⟨joinLines ((splitLines block.data).map (fun ln =>
      if ln.isEmpty then ln else (indentStr addIndentLevels indentSize).data ++ ln))⟩

/-! ## The recursive renderer

`encodeArray` has exactly one recursive dependency — the list-layout
branch renders each element with `encodeListItem`. To keep every
definition kernel-computable the layout logic lives in the
non-recursive `encodeArrayCore`, which receives those pre-rendered
list-item lines as an argument (and ignores them in the inline and
tabular branches); `encodeArray` itself is the definitionally equal
wrapper that supplies them. -/

/-- The body of `encodeArray` from the source, with the recursive
list-layout item renderings supplied by the caller: inline when every
element is primitive (vacuously so for an empty array), else tabular
when the array is a non-empty homogeneous mapping array whose
shared-key values are all primitive, else list. -/
def encodeArrayCore (arr : List Json) (listLines : List String)
    (indent indentSize : Nat) : EncodedArray :=
  let N := arr.length
  if arr.all isPrimitive then
    let delimiter := chooseDelimiterForValues arr
    ⟨.inline, "[" ++ toString N ++ "]",
      String.intercalate (charStr delimiter)
        (arr.map (fun x => encodePrimitive x delimiter)),
      delimiter, []⟩
  else
    let objRows := arr.filterMap objFieldsOf
    let sk := sameKeySet objRows
    let keys := sk.2
    if 0 < arr.length ∧ arr.all isObjJson ∧ sk.1 = true ∧
        objRows.all (fun o => keys.all (fun k => isPrimitiveOpt (getField o k)))
    then
      let cellValues := objRows.flatMap
        (fun o => keys.map (fun k => (getField o k).getD .null))
      let delimiter := chooseDelimiterForValues cellValues
      let fieldsStr := String.intercalate "," (keys.map (fun k => encodeKey k ','))
      let rowIndent := indentStr (indent + 1) indentSize
      let lines := objRows.map (fun o =>
        rowIndent ++ String.intercalate (charStr delimiter)
          (keys.map (fun k => encodePrimitive ((getField o k).getD .null) delimiter)))
      ⟨.tabular, "[" ++ toString N ++ "]\x7b" ++ fieldsStr ++ "\x7d",
        String.intercalate "\n" lines, delimiter, keys⟩
    else
      ⟨.list, "[" ++ toString N ++ "]",
        String.intercalate "\n" listLines, ',', []⟩

mutual

/-- `encodeObjectField` from the source. -/
def encodeObjectField (key : String) (value : Json) (indent indentSize : Nat) :
    String :=
  let ind := indentStr indent indentSize
  let k := encodeKey key ','
  match value with
  | .arr xs =>
    let enc := encodeArrayCore xs (encodeListItems xs (indent + 1) indentSize)
      indent indentSize
    if enc.kind = .inline then ind ++ k ++ enc.header ++ ": " ++ enc.body
    else if enc.body ≠ "" then ind ++ k ++ enc.header ++ ":\n" ++ enc.body
    else ind ++ k ++ enc.header ++ ":"
  | .obj o =>
    if o.isEmpty then ind ++ k ++ ":"
    else
      let body := String.intercalate "\n" (encodeFieldLines o (indent + 1) indentSize)
      if body ≠ "" then ind ++ k ++ ":\n" ++ body else ind ++ k ++ ":"
  | v => ind ++ k ++ ": " ++ encodePrimitive v ','
termination_by structural value

/-- The field loop of `encodeObject`: one rendered field per entry. -/
def encodeFieldLines (fields : List (String × Json)) (indent indentSize : Nat) :
    List String :=
  match fields with
  | [] => []
  | (k, v) :: rest =>
    encodeObjectField k v indent indentSize ::
      encodeFieldLines rest indent indentSize
termination_by structural fields

/-- `encodeListItem` from the source: a `- ` item, with a mapping
item's first field attached to the dash line and the remaining fields
indented one level deeper. -/
def encodeListItem (v : Json) (indent indentSize : Nat) : String :=
  let ind := indentStr indent indentSize
  match v with
  | .arr xs =>
    let enc := encodeArrayCore xs (encodeListItems xs (indent + 1) indentSize)
      indent indentSize
    if enc.kind = .inline then ind ++ "- " ++ enc.header ++ ": " ++ enc.body
    else if enc.body ≠ "" then ind ++ "- " ++ enc.header ++ ":\n" ++ enc.body
    else ind ++ "- " ++ enc.header ++ ":"
  | .obj o =>
    match o with
    | [] => ind ++ "-"
    | (firstKey, firstVal) :: restFields =>
      let firstKeyToken := encodeKey firstKey ','
      let fl : String × List String :=
        match firstVal with
        | .arr xs =>
          let enc := encodeArrayCore xs (encodeListItems xs (indent + 1) indentSize)
            indent indentSize
          if enc.kind = .inline then
            (ind ++ "- " ++ firstKeyToken ++ enc.header ++ ": " ++ enc.body, [])
          else
            (ind ++ "- " ++ firstKeyToken ++ enc.header ++ ":",
             if enc.body ≠ "" then
               [if enc.kind = .tabular then reindentBlock enc.body 1 indentSize
                else enc.body]
             else [])
        | .obj o2 =>
          let nested := String.intercalate "\n"
            (encodeFieldLines o2 (indent + 1) indentSize)
          (ind ++ "- " ++ firstKeyToken ++ ":",
           if nested ≠ "" then [nested] else [])
        | fv => (ind ++ "- " ++ firstKeyToken ++ ": " ++ encodePrimitive fv ',', [])
      let tailLines := fl.2 ++ encodeFieldLines restFields (indent + 1) indentSize
      let rest := String.intercalate "\n" (tailLines.filter (· ≠ ""))
      if rest ≠ "" then fl.1 ++ "\n" ++ rest else fl.1
  | p => ind ++ "- " ++ encodePrimitive p ','
termination_by structural v

/-- The list-layout loop of `encodeArray`: one rendered item per element. -/
def encodeListItems (items : List Json) (indent indentSize : Nat) : List String :=
  match items with
  | [] => []
  | x :: rest =>
    encodeListItem x indent indentSize :: encodeListItems rest indent indentSize
termination_by structural items

end

/-- `encodeArray` from the source. -/
def encodeArray (arr : List Json) (indent indentSize : Nat) : EncodedArray :=
  encodeArrayCore arr (encodeListItems arr (indent + 1) indentSize) indent indentSize

/-- `encodeObject` from the source. -/
def encodeObject (obj : List (String × Json)) (indent indentSize : Nat) : String :=
  String.intercalate "\n" (encodeFieldLines obj indent indentSize)

/-! ## Top-level driver -/

/-- One line of `out.replace(/[ \t]+$/gm, "")`: drop the trailing run
of spaces and tabs. -/
def stripLineTrailingWS (l : List Char) : List Char :=
  (l.reverse.dropWhile (fun c => c == ' ' || c == '\t')).reverse

/-- `out.replace(/[ \t]+$/gm, "")`. -/
def stripTrailingWS (s : String) : String :=
  ⟨joinLines ((splitLines s.data).map stripLineTrailingWS)⟩

/-- The rendering part of `encodeToon`, after normalization. -/
def encodeJson (v : Json) (indentSize : Nat) : String :=
  match v with
  | .arr xs =>
    let enc := encodeArray xs 0 indentSize
    if enc.kind = .inline then enc.header ++ ": " ++ enc.body
    else enc.header ++ ":\n" ++ enc.body
  | .obj o =>
    if (objKeys o).isEmpty then "" else encodeObject o 0 indentSize
  | p => encodePrimitive p ','

/-- `encodeToon` from the source: normalize, render, strip each line's
trailing horizontal whitespace, and append one newline. -/
def encodeToon (input : Host) (sanitizeJs : Bool) (indentSize : Nat) :
    Except String String :=
  (normalize input sanitizeJs).map
    (fun v => stripTrailingWS (encodeJson v indentSize) ++ "\n")

/-! ## Layout selection (claims C3, C4, C5) -/

/-- A comma-bearing string value among `v :: rest` is among `rest`
when `v` is not a string (or is a comma-free string). -/
theorem exists_comma_str_cons {v : Json} {rest : List Json}
    (hv : ∀ t, v = Json.str t → ',' ∉ t.data) :
    (∃ s, Json.str s ∈ v :: rest ∧ ',' ∈ s.data) ↔
      ∃ s, Json.str s ∈ rest ∧ ',' ∈ s.data := by
  constructor
  · rintro ⟨s, hs, hc⟩
    rcases List.mem_cons.mp hs with heq | hm
    · exact absurd hc (hv s heq.symm)
    · exact ⟨s, hm, hc⟩
  · rintro ⟨s, hm, hc⟩
    exact ⟨s, List.mem_cons_of_mem _ hm, hc⟩

/-- The tab delimiter is chosen exactly when some string value in the
scanned list contains a literal comma. -/
theorem chooseDelim_tab_iff (vs : List Json) :
    chooseDelimiterForValues vs = '\t' ↔ ∃ s, Json.str s ∈ vs ∧ ',' ∈ s.data := by
  induction vs with
  | nil =>
    constructor
    · intro h; exact absurd h (by decide)
    · rintro ⟨s, hs, _⟩; exact absurd hs (List.not_mem_nil _)
  | cons v rest ih =>
    cases v with
    | str s =>
      by_cases h : s.data.contains ',' = true
      · have hm : ',' ∈ s.data := by simpa using h
        rw [show chooseDelimiterForValues (Json.str s :: rest) =
          if s.data.contains ',' then '\t' else chooseDelimiterForValues rest
          from rfl, if_pos h]
        exact ⟨fun _ => ⟨s, List.mem_cons_self _ _, hm⟩, fun _ => rfl⟩
      · rw [show chooseDelimiterForValues (Json.str s :: rest) =
          if s.data.contains ',' then '\t' else chooseDelimiterForValues rest
          from rfl, if_neg h]
        refine ih.trans (exists_comma_str_cons ?_).symm
        intro t ht hc
        cases ht
        exact h (by simpa using hc)
    | null =>
      exact ih.trans (exists_comma_str_cons (by intro t ht _; cases ht)).symm
    | bool b =>
      exact ih.trans (exists_comma_str_cons (by intro t ht _; cases ht)).symm
    | num n =>
      exact ih.trans (exists_comma_str_cons (by intro t ht _; cases ht)).symm
    | arr xs =>
      exact ih.trans (exists_comma_str_cons (by intro t ht _; cases ht)).symm
    | obj o =>
      exact ih.trans (exists_comma_str_cons (by intro t ht _; cases ht)).symm

/-- The delimiter is always a comma or a tab. -/
theorem chooseDelim_comma_or_tab (vs : List Json) :
    chooseDelimiterForValues vs = ',' ∨ chooseDelimiterForValues vs = '\t' := by
  induction vs with
  | nil => left; rfl
  | cons v rest ih =>
    cases v with
    | str s =>
      by_cases h : s.data.contains ',' = true
      · right
        rw [show chooseDelimiterForValues (Json.str s :: rest) =
          if s.data.contains ',' then '\t' else chooseDelimiterForValues rest
          from rfl, if_pos h]
      · rw [show chooseDelimiterForValues (Json.str s :: rest) =
          if s.data.contains ',' then '\t' else chooseDelimiterForValues rest
          from rfl, if_neg h]
        exact ih
    | null => exact ih
    | bool b => exact ih
    | num n => exact ih
    | arr xs => exact ih
    | obj o => exact ih

/-- The tabular guard of `encodeArray`, written out. -/
def tabularGuard (arr : List Json) : Prop :=
  0 < arr.length ∧ arr.all isObjJson ∧
    (sameKeySet (arr.filterMap objFieldsOf)).1 = true ∧
    (arr.filterMap objFieldsOf).all (fun o =>
      (sameKeySet (arr.filterMap objFieldsOf)).2.all
        (fun k => isPrimitiveOpt (getField o k)))

instance (arr : List Json) : Decidable (tabularGuard arr) := by
  unfold tabularGuard; infer_instance

/-- The inline branch of `encodeArray`. -/
theorem encodeArrayCore_inline {arr : List Json} (ll : List String) (i s : Nat)
    (h : arr.all isPrimitive = true) :
    encodeArrayCore arr ll i s =
      ⟨.inline, "[" ++ toString arr.length ++ "]",
        String.intercalate (charStr (chooseDelimiterForValues arr))
          (arr.map (fun x => encodePrimitive x (chooseDelimiterForValues arr))),
        chooseDelimiterForValues arr, []⟩ := by
  simp only [encodeArrayCore, h, if_true]

/-- The tabular branch of `encodeArray`. -/
theorem encodeArrayCore_tabular {arr : List Json} (ll : List String) (i s : Nat)
    (hp : ¬arr.all isPrimitive = true) (ht : tabularGuard arr) :
    encodeArrayCore arr ll i s =
      (let objRows := arr.filterMap objFieldsOf
       let keys := (sameKeySet objRows).2
       let delimiter := chooseDelimiterForValues (objRows.flatMap
         (fun o => keys.map (fun k => (getField o k).getD .null)))
       ⟨.tabular,
        "[" ++ toString arr.length ++ "]\x7b" ++
          String.intercalate "," (keys.map (fun k => encodeKey k ',')) ++ "\x7d",
        String.intercalate "\n" (objRows.map (fun o =>
          indentStr (i + 1) s ++ String.intercalate (charStr delimiter)
            (keys.map (fun k => encodePrimitive ((getField o k).getD .null) delimiter)))),
        delimiter, keys⟩) := by
  rw [show encodeArrayCore arr ll i s =
    if arr.all isPrimitive then _ else
      if h : tabularGuard arr then _ else _
    from rfl]
  rw [if_neg hp, dif_pos ht]

/-- The list branch of `encodeArray`. -/
theorem encodeArrayCore_list {arr : List Json} (ll : List String) (i s : Nat)
    (hp : ¬arr.all isPrimitive = true) (ht : ¬tabularGuard arr) :
    encodeArrayCore arr ll i s =
      ⟨.list, "[" ++ toString arr.length ++ "]",
        String.intercalate "\n" ll, ',', []⟩ := by
  rw [show encodeArrayCore arr ll i s =
    if arr.all isPrimitive then _ else
      if h : tabularGuard arr then _ else _
    from rfl]
  rw [if_neg hp, dif_neg ht]

/-- `sameKeySet` on a non-empty row list, written out. -/
theorem sameKeySet_cons (r0 : List (String × Json))
    (rest : List (List (String × Json))) :
    sameKeySet (r0 :: rest) =
      if rest.all (fun o => ((objKeys o).length == (objKeys r0).length) &&
          (objKeys o).all ((objKeys r0).contains ·))
      then (true, objKeys r0) else (false, []) := rfl

/-- The `ok` flag of `sameKeySet`: every later row has as many keys as
the first and only keys of the first. -/
theorem sameKeySet_fst_iff (r0 : List (String × Json))
    (rest : List (List (String × Json))) :
    (sameKeySet (r0 :: rest)).1 = true ↔
      ∀ o ∈ rest, (objKeys o).length = (objKeys r0).length ∧
        ∀ k ∈ objKeys o, k ∈ objKeys r0 := by
  rw [sameKeySet_cons]
  by_cases h : rest.all (fun o => ((objKeys o).length == (objKeys r0).length) &&
      (objKeys o).all ((objKeys r0).contains ·)) = true
  · rw [if_pos h]
    simp only [List.all_eq_true, Bool.and_eq_true, beq_iff_eq] at h
    refine iff_of_true rfl ?_
    intro o ho
    rcases h o ho with ⟨h1, h2⟩
    exact ⟨h1, fun k hk => List.elem_iff.mp (h2 k hk)⟩
  · rw [if_neg h]
    refine iff_of_false (by simp) ?_
    intro hall
    apply h
    simp only [List.all_eq_true, Bool.and_eq_true, beq_iff_eq]
    intro o ho
    rcases hall o ho with ⟨h1, h2⟩
    exact ⟨h1, fun k hk => List.elem_iff.mpr (h2 k hk)⟩

/-- The keys returned by `sameKeySet` when its flag is set: the first
row's keys, in that row's order. -/
theorem sameKeySet_snd_of_fst (r0 : List (String × Json))
    (rest : List (List (String × Json)))
    (h : (sameKeySet (r0 :: rest)).1 = true) :
    (sameKeySet (r0 :: rest)).2 = objKeys r0 := by
  rw [sameKeySet_cons] at h ⊢
  by_cases hc : rest.all (fun o => ((objKeys o).length == (objKeys r0).length) &&
      (objKeys o).all ((objKeys r0).contains ·)) = true
  · rw [if_pos hc]
  · rw [if_neg hc] at h
    exact absurd h (by simp)

/-- A non-empty all-mapping array is not all-primitive. -/
theorem not_all_primitive_of_obj {x : Json} {rest : List Json}
    (hx : isObjJson x = true) :
    ¬(x :: rest).all isPrimitive = true := by
  intro h
  cases x with
  | obj o => exact absurd ((List.all_eq_true).mp h _ (List.mem_cons_self _ _)) (by simp [isPrimitive])
  | null => simp [isObjJson, objFieldsOf] at hx
  | bool b => simp [isObjJson, objFieldsOf] at hx
  | num n => simp [isObjJson, objFieldsOf] at hx
  | str s => simp [isObjJson, objFieldsOf] at hx
  | arr xs => simp [isObjJson, objFieldsOf] at hx

/-- The tabular guard, restated as the specification phrases it: the
array is non-empty, every element is a mapping, every mapping has the
first mapping's key-set cardinality and only its key names, and every
value under a shared key is primitive. -/
theorem tabularGuard_iff (arr : List Json) :
    tabularGuard arr ↔
      (arr ≠ [] ∧ (∀ x ∈ arr, isObjJson x = true) ∧
       (∀ o ∈ arr.filterMap objFieldsOf,
          (objKeys o).length = (objKeys (arr.filterMap objFieldsOf).headI).length ∧
          ∀ k ∈ objKeys o, k ∈ objKeys (arr.filterMap objFieldsOf).headI) ∧
       (∀ o ∈ arr.filterMap objFieldsOf,
          ∀ k ∈ objKeys (arr.filterMap objFieldsOf).headI,
          isPrimitiveOpt (getField o k) = true)) := by
  unfold tabularGuard
  cases arr with
  | nil => simp
  | cons x rest =>
    constructor
    · rintro ⟨-, hobj, hsk, hvals⟩
      have hobj' := (List.all_eq_true).mp hobj
      have hx := hobj' x (List.mem_cons_self _ _)
      obtain ⟨o0, ho0⟩ : ∃ o0, objFieldsOf x = some o0 := by
        cases x <;> simp_all [isObjJson, objFieldsOf]
      have hrows : (x :: rest).filterMap objFieldsOf =
          o0 :: rest.filterMap objFieldsOf := by
        rw [List.filterMap_cons, ho0]
      rw [hrows] at hsk hvals ⊢
      have hkeys := sameKeySet_snd_of_fst _ _ hsk
      rw [hkeys] at hvals
      have hfst := (sameKeySet_fst_iff _ _).mp hsk
      refine ⟨by simp, fun y hy => hobj' y hy, ?_, ?_⟩
      · intro o ho
        simp only [List.headI]
        rcases List.mem_cons.mp ho with rfl | hm
        · exact ⟨rfl, fun k hk => hk⟩
        · exact hfst o hm
      · intro o ho k hk
        simp only [List.headI] at hk
        exact (List.all_eq_true).mp
          ((List.all_eq_true).mp hvals o ho) k hk
    · rintro ⟨-, hobj, hsame, hvals⟩
      have hx := hobj x (List.mem_cons_self _ _)
      obtain ⟨o0, ho0⟩ : ∃ o0, objFieldsOf x = some o0 := by
        cases x <;> simp_all [isObjJson, objFieldsOf]
      have hrows : (x :: rest).filterMap objFieldsOf =
          o0 :: rest.filterMap objFieldsOf := by
        rw [List.filterMap_cons, ho0]
      rw [hrows] at hsame hvals ⊢
      simp only [List.headI] at hsame hvals
      have hsk : (sameKeySet (o0 :: rest.filterMap objFieldsOf)).1 = true :=
        (sameKeySet_fst_iff _ _).mpr fun o ho => hsame o (List.mem_cons_of_mem _ ho)
      refine ⟨by simp, (List.all_eq_true).mpr hobj, hsk, ?_⟩
      rw [sameKeySet_snd_of_fst _ _ hsk]
      exact (List.all_eq_true).mpr fun o ho =>
        (List.all_eq_true).mpr fun k hk => hvals o ho k hk

/-- Under the tabular guard the row list is non-empty. -/
theorem rows_cons_of_guard {arr : List Json} (ht : tabularGuard arr) :
    ∃ o0 rtl, arr.filterMap objFieldsOf = o0 :: rtl := by
  rcases ht with ⟨hlen, hobj, -, -⟩
  cases arr with
  | nil => simp at hlen
  | cons x rest =>
    have hx := (List.all_eq_true).mp hobj x (List.mem_cons_self _ _)
    obtain ⟨o0, ho0⟩ : ∃ o0, objFieldsOf x = some o0 := by
      cases x <;> simp_all [isObjJson, objFieldsOf]
    exact ⟨o0, rest.filterMap objFieldsOf, by rw [List.filterMap_cons, ho0]⟩

/-- Under the tabular guard the array is not all-primitive. -/
theorem not_all_prim_of_guard {arr : List Json} (ht : tabularGuard arr) :
    ¬arr.all isPrimitive = true := by
  rcases ht with ⟨hlen, hobj, -, -⟩
  cases arr with
  | nil => simp at hlen
  | cons x rest =>
    exact not_all_primitive_of_obj
      ((List.all_eq_true).mp hobj x (List.mem_cons_self _ _))

/-- Under the tabular guard, `sameKeySet` returns the first row's keys. -/
theorem sameKeySet_snd_of_guard {arr : List Json} (ht : tabularGuard arr) :
    (sameKeySet (arr.filterMap objFieldsOf)).2 =
      objKeys (arr.filterMap objFieldsOf).headI := by
  obtain ⟨o0, rtl, hrows⟩ := rows_cons_of_guard ht
  have hsk := ht.2.2.1
  rw [hrows] at hsk ⊢
  rw [sameKeySet_snd_of_fst _ _ hsk]
  rfl

/-- The layout kind chosen by `encodeArray` is `tabular` exactly when
the tabular guard holds. -/
theorem encodeArray_kind_tabular_iff (arr : List Json) (i s : Nat) :
    (encodeArray arr i s).kind = ArrayKind.tabular ↔ tabularGuard arr := by
  constructor
  · intro h
    by_cases hp : arr.all isPrimitive = true
    · rw [encodeArray, encodeArrayCore_inline _ _ _ hp] at h
      simp at h
    · by_cases ht : tabularGuard arr
      · exact ht
      · rw [encodeArray, encodeArrayCore_list _ _ _ hp ht] at h
        simp at h
  · intro ht
    rw [encodeArray, encodeArrayCore_tabular _ _ _ (not_all_prim_of_guard ht) ht]

/-- The full shape of a tabular encoding, with the key list written as
the first row's keys. -/
theorem encodeArray_tabular_shape (arr : List Json) (i s : Nat)
    (ht : tabularGuard arr) :
    encodeArray arr i s =
      (let rows := arr.filterMap objFieldsOf
       let keys := objKeys rows.headI
       let delim := chooseDelimiterForValues (rows.flatMap
         (fun o => keys.map (fun k => (getField o k).getD .null)))
       ⟨.tabular,
        "[" ++ toString arr.length ++ "]\x7b" ++
          String.intercalate "," (keys.map (fun k => encodeKey k ',')) ++ "\x7d",
        String.intercalate "\n" (rows.map (fun o =>
          indentStr (i + 1) s ++ String.intercalate (charStr delim)
            (keys.map (fun k => encodePrimitive ((getField o k).getD .null) delim)))),
        delim, keys⟩) := by
  rw [encodeArray, encodeArrayCore_tabular _ _ _ (not_all_prim_of_guard ht) ht]
  simp only [sameKeySet_snd_of_guard ht]

/-- C3 counterexample: on the empty canonical sequence the selector
returns the inline layout, not the list layout the claim states. -/
theorem empty_array_layout_counterexample :
    (encodeArray ([] : List Json) 0 2).kind = ArrayKind.inline ∧
      ¬(encodeArray ([] : List Json) 0 2).kind = ArrayKind.list :=
  ⟨rfl, by decide⟩

/-- C3 (amended): the empty sequence takes the inline layout — the
all-primitive test holds vacuously — with header `[0]` and empty body;
the inline layout is chosen for every all-primitive array, and the
tabular layout is only ever chosen for a non-empty array. -/
theorem empty_array_inline_layout :
    (∀ i s : Nat, encodeArray [] i s = ⟨.inline, "[0]", "", ',', []⟩) ∧
    (∀ (arr : List Json) (i s : Nat), arr.all isPrimitive = true →
      (encodeArray arr i s).kind = ArrayKind.inline) ∧
    (∀ (arr : List Json) (i s : Nat),
      (encodeArray arr i s).kind = ArrayKind.tabular → arr ≠ []) := by
  refine ⟨fun i s => rfl, fun arr i s h => ?_, fun arr i s h => ?_⟩
  · rw [encodeArray, encodeArrayCore_inline _ _ _ h]
  · intro hnil
    subst hnil
    rw [encodeArray, encodeArrayCore_inline _ _ _
      (show ([] : List Json).all isPrimitive = true from rfl)] at h
    simp at h

/-- Witness for the amended C3 theorem at concrete inputs. -/
theorem empty_array_inline_layout_witness :
    (encodeArray [Json.bool true] 0 2).kind = ArrayKind.inline ∧
      [Json.obj [("a", Json.null)]] ≠ ([] : List Json) :=
  ⟨empty_array_inline_layout.2.1 [Json.bool true] 0 2 rfl,
   empty_array_inline_layout.2.2 [Json.obj [("a", Json.null)]] 0 2 (by decide)⟩

/-- C4: the tabular layout is chosen exactly when the sequence is
non-empty, every element is a mapping, every mapping has the first
mapping's key-set cardinality and only its key names, and every value
under a shared key is primitive. In that case the fields are the first
mapping's keys in order, the header is `[N]{k1,k2,...}` with keys
encoded against the comma delimiter, and the body is one indented line
per row with cells joined by the chosen delimiter in key order. The
two worked examples of the specification evaluate as stated. -/
theorem tabular_layout_characterization :
    (∀ (arr : List Json) (i s : Nat),
      (encodeArray arr i s).kind = ArrayKind.tabular ↔
        (arr ≠ [] ∧ (∀ x ∈ arr, isObjJson x = true) ∧
         (∀ o ∈ arr.filterMap objFieldsOf,
            (objKeys o).length = (objKeys (arr.filterMap objFieldsOf).headI).length ∧
            ∀ k ∈ objKeys o, k ∈ objKeys (arr.filterMap objFieldsOf).headI) ∧
         (∀ o ∈ arr.filterMap objFieldsOf,
            ∀ k ∈ objKeys (arr.filterMap objFieldsOf).headI,
            isPrimitiveOpt (getField o k) = true)))
    ∧ (∀ (arr : List Json) (i s : Nat),
        (encodeArray arr i s).kind = ArrayKind.tabular →
        (encodeArray arr i s).tabularFields =
          objKeys (arr.filterMap objFieldsOf).headI ∧
        (encodeArray arr i s).header =
          "[" ++ toString arr.length ++ "]\x7b" ++
            String.intercalate ","
              ((objKeys (arr.filterMap objFieldsOf).headI).map
                (fun k => encodeKey k ',')) ++ "\x7d" ∧
        (encodeArray arr i s).body =
          String.intercalate "\n" ((arr.filterMap objFieldsOf).map (fun o =>
            indentStr (i + 1) s ++
              String.intercalate (charStr (encodeArray arr i s).delimiter)
                ((objKeys (arr.filterMap objFieldsOf).headI).map
                  (fun k => encodePrimitive ((getField o k).getD .null)
                    (encodeArray arr i s).delimiter)))))
    ∧ encodeToon
        (.harr [.hobj [("id", .hnum (.finite "1")), ("name", .hstr "Ada")],
                .hobj [("id", .hnum (.finite "2")), ("name", .hstr "Lin")]])
        false 2 =
        .ok "[2]\x7bid,name\x7d:\n  1,Ada\n  2,Lin\n"
    ∧ (encodeArray [.obj [("id", .num (.finite "1"))],
         .obj [("id", .num (.finite "1")), ("extra", .num (.finite "2"))]]
         0 2).kind = ArrayKind.list := by
  refine ⟨fun arr i s => (encodeArray_kind_tabular_iff arr i s).trans
    (tabularGuard_iff arr), fun arr i s h => ?_, by rfl, by rfl⟩
  have ht := (encodeArray_kind_tabular_iff arr i s).mp h
  rw [encodeArray_tabular_shape arr i s ht]
  exact ⟨rfl, rfl, rfl⟩

/-- Witness for the tabular characterization at a concrete input. -/
theorem tabular_layout_characterization_witness :
    (encodeArray [Json.obj [("a", Json.null)]] 0 2).kind = ArrayKind.tabular ∧
      (encodeArray [Json.obj [("a", Json.null)]] 0 2).tabularFields =
        objKeys ([Json.obj [("a", Json.null)]].filterMap objFieldsOf).headI :=
  ⟨(tabular_layout_characterization.1 [Json.obj [("a", Json.null)]] 0 2).mpr
      (by exact ⟨by simp, by decide, by decide, by decide⟩),
   (tabular_layout_characterization.2.1 [Json.obj [("a", Json.null)]] 0 2
      (by decide)).1⟩

/-- C5: across an inline array's elements, or a tabular layout's cell
values, the tab delimiter is used exactly when some string value
contains a literal comma; only string values are scanned, so a list
with no string value always selects the comma. -/
theorem delimiter_selection :
    (∀ vs : List Json,
      (chooseDelimiterForValues vs = '\t' ↔
        ∃ s, Json.str s ∈ vs ∧ ',' ∈ s.data) ∧
      (chooseDelimiterForValues vs = ',' ∨ chooseDelimiterForValues vs = '\t') ∧
      ((∀ v ∈ vs, ∀ s, v ≠ Json.str s) → chooseDelimiterForValues vs = ','))
    ∧ (∀ (arr : List Json) (i s : Nat), arr.all isPrimitive = true →
        (encodeArray arr i s).delimiter = chooseDelimiterForValues arr)
    ∧ (∀ (arr : List Json) (i s : Nat),
        (encodeArray arr i s).kind = ArrayKind.tabular →
        (encodeArray arr i s).delimiter =
          chooseDelimiterForValues ((arr.filterMap objFieldsOf).flatMap (fun o =>
            (objKeys (arr.filterMap objFieldsOf).headI).map
              (fun k => (getField o k).getD .null)))) := by
  refine ⟨fun vs => ⟨chooseDelim_tab_iff vs, chooseDelim_comma_or_tab vs, ?_⟩,
    fun arr i s h => ?_, fun arr i s h => ?_⟩
  · intro hns
    rcases chooseDelim_comma_or_tab vs with hc | ht
    · exact hc
    · obtain ⟨t, hmem, -⟩ := (chooseDelim_tab_iff vs).mp ht
      exact absurd rfl (hns _ hmem t)
  · rw [encodeArray, encodeArrayCore_inline _ _ _ h]
  · have ht := (encodeArray_kind_tabular_iff arr i s).mp h
    rw [encodeArray_tabular_shape arr i s ht]

/-- Witness for the delimiter-selection theorem at concrete inputs. -/
theorem delimiter_selection_witness :
    chooseDelimiterForValues [Json.num (.finite "1"), Json.bool true] = ',' ∧
      (encodeArray [Json.str "a,b"] 0 2).delimiter =
        chooseDelimiterForValues [Json.str "a,b"] ∧
      (encodeArray [Json.obj [("a", Json.str "x,y")]] 0 2).delimiter =
        chooseDelimiterForValues
          (([Json.obj [("a", Json.str "x,y")]].filterMap objFieldsOf).flatMap
            (fun o => (objKeys ([Json.obj [("a", Json.str "x,y")]].filterMap
              objFieldsOf).headI).map (fun k => (getField o k).getD .null))) :=
  ⟨(delimiter_selection.1 [Json.num (.finite "1"), Json.bool true]).2.2
      (by intro v hv t; rcases List.mem_cons.mp hv with rfl | hv
          · exact fun h => Json.noConfusion h
          · rcases List.mem_cons.mp hv with rfl | hv
            · exact fun h => Json.noConfusion h
            · exact absurd hv (List.not_mem_nil _)),
   delimiter_selection.2.1 [Json.str "a,b"] 0 2 (by decide),
   delimiter_selection.2.2 [Json.obj [("a", Json.str "x,y")]] 0 2 (by decide)⟩

/-! ## Normalization (claims C6, C7, C9) -/

mutual

/-- The condition the specification states for a strict-mode failure: the
value contains, anywhere, a non-finite number or a value whose runtime
type is outside null, boolean, number, string, array, plain object. -/
def hasBadStrict : Host → Bool
  | .hnull | .hbool _ | .hstr _ => false
  | .hnum n =>
    match n with
    | .nan | .posInf | .negInf => true
    | .negZero | .finite _ => false
  | .hundef | .hbigint _ | .hfunc | .hsym | .hdate _ | .hother _ => true
  | .harr xs => hasBadStrictList xs
  | .hobj fs => hasBadStrictFields fs
termination_by structural v => v

/-- `hasBadStrict` over the elements of a sequence. -/
def hasBadStrictList : List Host → Bool
  | [] => false
  | x :: rest => hasBadStrict x || hasBadStrictList rest
termination_by structural xs => xs

/-- `hasBadStrict` over the field values of a mapping. -/
def hasBadStrictFields : List (String × Host) → Bool
  | [] => false
  | (_, v) :: rest => hasBadStrict v || hasBadStrictFields rest
termination_by structural fs => fs

end

/-- Mapping a function over an `Except` does not change success. -/
theorem except_map_isOk {α β : Type} (f : α → β) (e : Except String α) :
    (e.map f).isOk = e.isOk := by
  cases e <;> rfl

mutual

/-- Strict normalization succeeds exactly on values with no bad node. -/
theorem normalize_strict_isOk : (v : Host) →
    (normalize v false).isOk = !hasBadStrict v
  | .hnull => rfl
  | .hbool _ => rfl
  | .hstr _ => rfl
  | .hnum .nan => rfl
  | .hnum .posInf => rfl
  | .hnum .negInf => rfl
  | .hnum .negZero => rfl
  | .hnum (.finite _) => rfl
  | .hundef => rfl
  | .hbigint _ => rfl
  | .hfunc => rfl
  | .hsym => rfl
  | .hdate _ => rfl
  | .hother _ => rfl
  | .harr xs => by
    rw [show normalize (.harr xs) false = (normalizeList xs false).map Json.arr
      from rfl, except_map_isOk, normalizeList_strict_isOk xs]
    rfl
  | .hobj fs => by
    rw [show normalize (.hobj fs) false = (normalizeFields fs false).map Json.obj
      from rfl, except_map_isOk, normalizeFields_strict_isOk fs]
    rfl
termination_by structural v => v

/-- Strict element-wise normalization succeeds exactly when no element
has a bad node. -/
theorem normalizeList_strict_isOk : (xs : List Host) →
    (normalizeList xs false).isOk = !hasBadStrictList xs
  | [] => rfl
  | x :: rest => by
    have hx := normalize_strict_isOk x
    have hr := normalizeList_strict_isOk rest
    show ((normalize x false).bind (fun j =>
        (normalizeList rest false).bind (fun js =>
          Except.ok (j :: js)))).isOk =
      !(hasBadStrict x || hasBadStrictList rest)
    cases hnx : normalize x false with
    | error e =>
      rw [hnx] at hx
      have hbx : hasBadStrict x = true := by
        cases hbs : hasBadStrict x
        · rw [hbs] at hx; exact Bool.noConfusion hx
        · rfl
      rw [hbx]
      rfl
    | ok j =>
      rw [hnx] at hx
      have hbx : hasBadStrict x = false := by
        cases hbs : hasBadStrict x
        · rfl
        · rw [hbs] at hx; exact Bool.noConfusion hx
      rw [hbx]
      cases hnr : normalizeList rest false with
      | error e =>
        rw [hnr] at hr
        have hbr : hasBadStrictList rest = true := by
          cases hbs : hasBadStrictList rest
          · rw [hbs] at hr; exact Bool.noConfusion hr
          · rfl
        rw [hbr]
        rfl
      | ok js =>
        rw [hnr] at hr
        have hbr : hasBadStrictList rest = false := by
          cases hbs : hasBadStrictList rest
          · rfl
          · rw [hbs] at hr; exact Bool.noConfusion hr
        rw [hbr]
        rfl
termination_by structural xs => xs

/-- Strict field-wise normalization succeeds exactly when no field
value has a bad node. -/
theorem normalizeFields_strict_isOk : (fs : List (String × Host)) →
    (normalizeFields fs false).isOk = !hasBadStrictFields fs
  | [] => rfl
  | (k, v) :: rest => by
    have hx := normalize_strict_isOk v
    have hr := normalizeFields_strict_isOk rest
    show ((normalize v false).bind (fun j =>
        (normalizeFields rest false).bind (fun js =>
          Except.ok ((k, j) :: js)))).isOk =
      !(hasBadStrict v || hasBadStrictFields rest)
    cases hnx : normalize v false with
    | error e =>
      rw [hnx] at hx
      have hbx : hasBadStrict v = true := by
        cases hbs : hasBadStrict v
        · rw [hbs] at hx; exact Bool.noConfusion hx
        · rfl
      rw [hbx]
      rfl
    | ok j =>
      rw [hnx] at hx
      have hbx : hasBadStrict v = false := by
        cases hbs : hasBadStrict v
        · rfl
        · rw [hbs] at hx; exact Bool.noConfusion hx
      rw [hbx]
      cases hnr : normalizeFields rest false with
      | error e =>
        rw [hnr] at hr
        have hbr : hasBadStrictFields rest = true := by
          cases hbs : hasBadStrictFields rest
          · rw [hbs] at hr; exact Bool.noConfusion hr
          · rfl
        rw [hbr]
        rfl
      | ok js =>
        rw [hnr] at hr
        have hbr : hasBadStrictFields rest = false := by
          cases hbs : hasBadStrictFields rest
          · rfl
          · rw [hbs] at hr; exact Bool.noConfusion hr
        rw [hbr]
        rfl
termination_by structural fs => fs

end

mutual

/-- The total value computed by sanitize-mode normalization (which
never fails): non-finite numbers, `undefined`, functions and symbols
become `Null`; big integers, dates and other objects become strings;
sequence elements that are `undefined` become `Null` in place; mapping
fields whose value is `undefined` are omitted. -/
def sanitizeVal : Host → Json
  | .hnull => .null
  | .hbool b => .bool b
  | .hstr s => .str s
  | .hnum n =>
    match n with
    | .nan | .posInf | .negInf => .null
    | .negZero => .num (.finite "0")
    | .finite r => .num (.finite r)
  | .hbigint d => .str d
  | .hundef => .null
  | .hfunc => .null
  | .hsym => .null
  | .hdate iso => .str iso
  | .harr xs => .arr (sanitizeValList xs)
  | .hobj fs => .obj (sanitizeValFields fs)
  | .hother r => .str r
termination_by structural v => v

/-- Sanitize-mode normalization of sequence elements. -/
def sanitizeValList : List Host → List Json
  | [] => []
  | x :: rest =>
    (if isUndef x then Json.null else sanitizeVal x) :: sanitizeValList rest
termination_by structural xs => xs

/-- Sanitize-mode normalization of mapping fields. -/
def sanitizeValFields : List (String × Host) → List (String × Json)
  | [] => []
  | (k, v) :: rest =>
    if isUndef v then sanitizeValFields rest
    else (k, sanitizeVal v) :: sanitizeValFields rest
termination_by structural fs => fs

end

mutual

/-- Sanitize-mode normalization never fails and computes `sanitizeVal`. -/
theorem normalize_sanitize_eq : (v : Host) →
    normalize v true = .ok (sanitizeVal v)
  | .hnull => rfl
  | .hbool _ => rfl
  | .hstr _ => rfl
  | .hnum .nan => rfl
  | .hnum .posInf => rfl
  | .hnum .negInf => rfl
  | .hnum .negZero => rfl
  | .hnum (.finite _) => rfl
  | .hundef => rfl
  | .hbigint _ => rfl
  | .hfunc => rfl
  | .hsym => rfl
  | .hdate _ => rfl
  | .hother _ => rfl
  | .harr xs => by
    rw [show normalize (.harr xs) true = (normalizeList xs true).map Json.arr
      from rfl, normalizeList_sanitize_eq xs]
    rfl
  | .hobj fs => by
    rw [show normalize (.hobj fs) true = (normalizeFields fs true).map Json.obj
      from rfl, normalizeFields_sanitize_eq fs]
    rfl
termination_by structural v => v

/-- Sanitize-mode element normalization computes `sanitizeValList`. -/
theorem normalizeList_sanitize_eq : (xs : List Host) →
    normalizeList xs true = .ok (sanitizeValList xs)
  | [] => rfl
  | x :: rest => by
    cases hu : isUndef x with
    | true =>
      have hxu : x = .hundef := by cases x <;> simp_all [isUndef]
      subst hxu
      rw [show normalizeList (.hundef :: rest) true =
        (normalizeList rest true).map (Json.null :: ·) from rfl,
        normalizeList_sanitize_eq rest]
      rfl
    | false =>
      have hne : ¬(true && isUndef x) = true := by rw [hu]; decide
      rw [show normalizeList (x :: rest) true =
          (if true && isUndef x then
            (normalizeList rest true).map (Json.null :: ·)
          else
            (normalize x true).bind (fun j =>
              (normalizeList rest true).bind (fun js => Except.ok (j :: js))))
        from rfl, if_neg hne, normalize_sanitize_eq x,
        normalizeList_sanitize_eq rest]
      rw [show sanitizeValList (x :: rest) =
        (if isUndef x then Json.null else sanitizeVal x) :: sanitizeValList rest
        from rfl, hu]
      rfl
termination_by structural xs => xs

/-- Sanitize-mode field normalization computes `sanitizeValFields`. -/
theorem normalizeFields_sanitize_eq : (fs : List (String × Host)) →
    normalizeFields fs true = .ok (sanitizeValFields fs)
  | [] => rfl
  | (k, v) :: rest => by
    cases hu : isUndef v with
    | true =>
      have hvu : v = .hundef := by cases v <;> simp_all [isUndef]
      subst hvu
      rw [show normalizeFields ((k, .hundef) :: rest) true =
        normalizeFields rest true from rfl,
        normalizeFields_sanitize_eq rest]
      rfl
    | false =>
      have hne : ¬(true && isUndef v) = true := by rw [hu]; decide
      rw [show normalizeFields ((k, v) :: rest) true =
          (if true && isUndef v then normalizeFields rest true
          else
            (normalize v true).bind (fun j =>
              (normalizeFields rest true).bind (fun js =>
                Except.ok ((k, j) :: js))))
        from rfl, if_neg hne, normalize_sanitize_eq v,
        normalizeFields_sanitize_eq rest]
      rw [show sanitizeValFields ((k, v) :: rest) =
        (if isUndef v then sanitizeValFields rest
         else (k, sanitizeVal v) :: sanitizeValFields rest) from rfl, if_neg ?_]
      · rfl
      · rw [hu]; exact Bool.false_ne_true
termination_by structural fs => fs

end

/-- `sanitizeValList` is an index-preserving map. -/
theorem sanitizeValList_eq_map (xs : List Host) :
    sanitizeValList xs =
      xs.map (fun x => if isUndef x then Json.null else sanitizeVal x) := by
  induction xs with
  | nil => rfl
  | cons x rest ih => rw [show sanitizeValList (x :: rest) =
      (if isUndef x then Json.null else sanitizeVal x) :: sanitizeValList rest
      from rfl, ih, List.map_cons]

/-- `sanitizeValFields` filters out `undefined` values, then maps. -/
theorem sanitizeValFields_eq_filter_map (fs : List (String × Host)) :
    sanitizeValFields fs =
      (fs.filter (fun p => !isUndef p.2)).map
        (fun p => (p.1, sanitizeVal p.2)) := by
  induction fs with
  | nil => rfl
  | cons p rest ih =>
    obtain ⟨k, v⟩ := p
    cases hu : isUndef v with
    | true =>
      rw [show sanitizeValFields ((k, v) :: rest) =
        (if isUndef v then sanitizeValFields rest
         else (k, sanitizeVal v) :: sanitizeValFields rest) from rfl,
        if_pos hu, ih, List.filter_cons]
      simp [hu]
    | false =>
      rw [show sanitizeValFields ((k, v) :: rest) =
        (if isUndef v then sanitizeValFields rest
         else (k, sanitizeVal v) :: sanitizeValFields rest) from rfl,
        if_neg (by rw [hu]; exact Bool.false_ne_true), ih, List.filter_cons]
      simp [hu]

/-- `encodeToon` succeeds exactly when normalization does. -/
theorem encodeToon_isOk_eq (v : Host) (m : Bool) (isz : Nat) :
    (encodeToon v m isz).isOk = (normalize v m).isOk := by
  rw [show encodeToon v m isz = (normalize v m).map
    (fun j => stripTrailingWS (encodeJson j isz) ++ "\n") from rfl]
  exact except_map_isOk _ _

/-- C6: strict-mode normalization (and hence encoding) fails exactly
when the input contains a non-finite number or a value whose runtime
type is outside null, boolean, number, string, array, plain object
(`hasBadStrict` formalizes that scan); on good inputs null, booleans
and strings pass through unchanged and negative zero becomes positive
zero. The `Except` result models synchronous propagation: an error
carries no partial output. -/
theorem strict_mode_error_characterization :
    (∀ v : Host, (normalize v false).isOk = !hasBadStrict v)
    ∧ (∀ (v : Host) (isz : Nat),
        (encodeToon v false isz).isOk = (normalize v false).isOk)
    ∧ normalize .hnull false = .ok .null
    ∧ (∀ b, normalize (.hbool b) false = .ok (.bool b))
    ∧ (∀ s, normalize (.hstr s) false = .ok (.str s))
    ∧ normalize (.hnum .negZero) false = .ok (.num (.finite "0"))
    ∧ (∀ r, normalize (.hnum (.finite r)) false = .ok (.num (.finite r))) :=
  ⟨normalize_strict_isOk, fun v isz => encodeToon_isOk_eq v false isz,
   rfl, fun _ => rfl, fun _ => rfl, rfl, fun _ => rfl⟩

/-- C7: sanitize-mode normalization never fails; an `undefined`
sequence element becomes `Null` at its own index, an `undefined`
mapping field value is omitted entirely, and the specification's
worked example renders as stated. -/
theorem sanitize_mode_total :
    (∀ (v : Host) (isz : Nat), (encodeToon v true isz).isOk = true)
    ∧ (∀ xs : List Host, normalize (.harr xs) true =
        .ok (.arr (xs.map
          (fun x => if isUndef x then Json.null else sanitizeVal x))))
    ∧ (∀ fs : List (String × Host), normalize (.hobj fs) true =
        .ok (.obj ((fs.filter (fun p => !isUndef p.2)).map
          (fun p => (p.1, sanitizeVal p.2)))))
    ∧ sanitizeVal .hundef = Json.null
    ∧ encodeToon (.hobj [("a", .hundef), ("b", .harr [.hundef])]) true 2 =
        .ok "b[1]: null\n" := by
  refine ⟨fun v isz => ?_, fun xs => ?_, fun fs => ?_, rfl, by rfl⟩
  · rw [encodeToon_isOk_eq, normalize_sanitize_eq v]
    rfl
  · rw [show normalize (.harr xs) true = (normalizeList xs true).map Json.arr
      from rfl, normalizeList_sanitize_eq xs,
      show (Except.ok (sanitizeValList xs)).map Json.arr =
        Except.ok (Json.arr (sanitizeValList xs)) from rfl,
      sanitizeValList_eq_map xs]
  · rw [show normalize (.hobj fs) true = (normalizeFields fs true).map Json.obj
      from rfl, normalizeFields_sanitize_eq fs,
      show (Except.ok (sanitizeValFields fs)).map Json.obj =
        Except.ok (Json.obj (sanitizeValFields fs)) from rfl,
      sanitizeValFields_eq_filter_map fs]

/-! ## Recursion depth (claim C9) -/

/-- A sequence nested to the given depth, ending in `null`. -/
def deepNest : Nat → Host
  | 0 => .hnull
  | n + 1 => .harr [deepNest n]

/-- No nesting of sequences introduces a bad strict-mode node. -/
theorem hasBadStrict_deepNest (n : Nat) : hasBadStrict (deepNest n) = false := by
  induction n with
  | zero => rfl
  | succ n ih =>
    rw [show deepNest (n + 1) = .harr [deepNest n] from rfl,
      show hasBadStrict (.harr [deepNest n]) =
        (hasBadStrict (deepNest n) || hasBadStrictList []) from rfl, ih]
    rfl

mutual

/-- Every error `normalize` can produce is one of the two
`InvalidValueError` messages of the source; in particular no message
about exceeded depth exists. -/
theorem normalize_error_shape : (v : Host) → (m : Bool) → (e : String) →
    normalize v m = .error e →
    e = "Non-finite number in strict mode" ∨
      ∃ t, e = "Non-JSON type in strict mode: " ++ t
  | v, true, e => fun h => by
    rw [normalize_sanitize_eq v] at h
    exact Except.noConfusion h
  | .hnull, false, e => fun h => Except.noConfusion h
  | .hbool _, false, e => fun h => Except.noConfusion h
  | .hstr _, false, e => fun h => Except.noConfusion h
  | .hnum .nan, false, e => fun h => .inl (Except.error.inj h).symm
  | .hnum .posInf, false, e => fun h => .inl (Except.error.inj h).symm
  | .hnum .negInf, false, e => fun h => .inl (Except.error.inj h).symm
  | .hnum .negZero, false, e => fun h => Except.noConfusion h
  | .hnum (.finite _), false, e => fun h => Except.noConfusion h
  | .hundef, false, e => fun h =>
    .inr ⟨"undefined", by rw [← (Except.error.inj h)]; rfl⟩
  | .hbigint _, false, e => fun h =>
    .inr ⟨"bigint", by rw [← (Except.error.inj h)]; rfl⟩
  | .hfunc, false, e => fun h =>
    .inr ⟨"function", by rw [← (Except.error.inj h)]; rfl⟩
  | .hsym, false, e => fun h =>
    .inr ⟨"symbol", by rw [← (Except.error.inj h)]; rfl⟩
  | .hdate _, false, e => fun h =>
    .inr ⟨"object", by rw [← (Except.error.inj h)]; rfl⟩
  | .hother _, false, e => fun h =>
    .inr ⟨"object", by rw [← (Except.error.inj h)]; rfl⟩
  | .harr xs, false, e => fun h => by
    rw [show normalize (.harr xs) false = (normalizeList xs false).map Json.arr
      from rfl] at h
    cases hnl : normalizeList xs false with
    | error e2 =>
      rw [hnl] at h
      cases h
      exact normalizeList_error_shape xs e hnl
    | ok js =>
      rw [hnl] at h
      exact Except.noConfusion h
  | .hobj fs, false, e => fun h => by
    rw [show normalize (.hobj fs) false = (normalizeFields fs false).map Json.obj
      from rfl] at h
    cases hnf : normalizeFields fs false with
    | error e2 =>
      rw [hnf] at h
      cases h
      exact normalizeFields_error_shape fs e hnf
    | ok js =>
      rw [hnf] at h
      exact Except.noConfusion h
termination_by structural v => v

/-- Error shape for strict element-wise normalization. -/
theorem normalizeList_error_shape : (xs : List Host) → (e : String) →
    normalizeList xs false = .error e →
    e = "Non-finite number in strict mode" ∨
      ∃ t, e = "Non-JSON type in strict mode: " ++ t
  | [], e => fun h => Except.noConfusion h
  | x :: rest, e => fun h => by
    rw [show normalizeList (x :: rest) false =
      (normalize x false).bind (fun j =>
        (normalizeList rest false).bind (fun js => Except.ok (j :: js)))
      from rfl] at h
    cases hnx : normalize x false with
    | error e2 =>
      rw [hnx] at h
      cases h
      exact normalize_error_shape x false e hnx
    | ok j =>
      rw [hnx] at h
      cases hnr : normalizeList rest false with
      | error e2 =>
        rw [hnr] at h
        cases h
        exact normalizeList_error_shape rest e hnr
      | ok js =>
        rw [hnr] at h
        exact Except.noConfusion h
termination_by structural xs => xs

/-- Error shape for strict field-wise normalization. -/
theorem normalizeFields_error_shape : (fs : List (String × Host)) → (e : String) →
    normalizeFields fs false = .error e →
    e = "Non-finite number in strict mode" ∨
      ∃ t, e = "Non-JSON type in strict mode: " ++ t
  | [], e => fun h => Except.noConfusion h
  | (k, v) :: rest, e => fun h => by
    rw [show normalizeFields ((k, v) :: rest) false =
      (normalize v false).bind (fun j =>
        (normalizeFields rest false).bind (fun js => Except.ok ((k, j) :: js)))
      from rfl] at h
    cases hnx : normalize v false with
    | error e2 =>
      rw [hnx] at h
      cases h
      exact normalize_error_shape v false e hnx
    | ok j =>
      rw [hnx] at h
      cases hnr : normalizeFields rest false with
      | error e2 =>
        rw [hnr] at h
        cases h
        exact normalizeFields_error_shape rest e hnr
      | ok js =>
        rw [hnr] at h
        exact Except.noConfusion h
termination_by structural fs => fs

end

/-- C9 counterexample: on input nested one thousand sequences deep the
encoder simply succeeds — no `DepthExceededError` (or any error) is
raised, because the source imposes no recursion-depth maximum. -/
theorem deep_nesting_no_failure_counterexample :
    (encodeToon (deepNest 1000) false 2).isOk = true := by
  rw [encodeToon_isOk_eq, normalize_strict_isOk, hasBadStrict_deepNest]
  rfl

/-- C9 (amended): the source has no configured recursion-depth maximum
and no `DepthExceededError`: encoding succeeds on sequences of every
nesting depth, and every error the codec can produce is one of the two
`InvalidValueError` messages of strict normalization. -/
theorem no_depth_limit :
    (∀ (n isz : Nat), (encodeToon (deepNest n) false isz).isOk = true)
    ∧ (∀ (v : Host) (m : Bool) (isz : Nat) (e : String),
        encodeToon v m isz = .error e →
        e = "Non-finite number in strict mode" ∨
          ∃ t, e = "Non-JSON type in strict mode: " ++ t) := by
  refine ⟨fun n isz => ?_, fun v m isz e h => ?_⟩
  · rw [encodeToon_isOk_eq, normalize_strict_isOk, hasBadStrict_deepNest]
    rfl
  · rw [show encodeToon v m isz = (normalize v m).map
      (fun j => stripTrailingWS (encodeJson j isz) ++ "\n") from rfl] at h
    cases hn : normalize v m with
    | error e2 =>
      rw [hn] at h
      cases h
      exact normalize_error_shape v m e hn
    | ok j =>
      rw [hn] at h
      exact Except.noConfusion h

/-- Witness for the amended C9 theorem at concrete inputs. -/
theorem no_depth_limit_witness :
    (encodeToon (deepNest 5) false 2).isOk = true ∧
      ("Non-finite number in strict mode" =
          "Non-finite number in strict mode" ∨
        ∃ t, "Non-finite number in strict mode" =
          "Non-JSON type in strict mode: " ++ t) :=
  ⟨no_depth_limit.1 5 2,
   no_depth_limit.2 (.hnum .nan) false 2 _ rfl⟩

/-! ## Output shape (claim C8) -/

/-- `splitLines` never returns an empty list of lines. -/
theorem splitLines_ne_nil (l : List Char) : splitLines l ≠ [] := by
  induction l with
  | nil => exact fun h => List.noConfusion h
  | cons c rest ih =>
    by_cases hc : c = '\n'
    · rw [show splitLines (c :: rest) =
        (if c = '\n' then [] :: splitLines rest
         else match splitLines rest with
           | l :: ls => (c :: l) :: ls
           | [] => [[c]]) from rfl, if_pos hc]
      exact fun h => List.noConfusion h
    · rw [show splitLines (c :: rest) =
        (if c = '\n' then [] :: splitLines rest
         else match splitLines rest with
           | l :: ls => (c :: l) :: ls
           | [] => [[c]]) from rfl, if_neg hc]
      cases hs : splitLines rest with
      | nil => exact fun h => List.noConfusion h
      | cons a as => exact fun h => List.noConfusion h

/-- Lines produced by `splitLines` contain no newline character. -/
theorem splitLines_no_nl (a : List Char) : ∀ l ∈ splitLines a, '\n' ∉ l := by
  induction a with
  | nil =>
    intro l hl
    rw [show splitLines [] = [[]] from rfl] at hl
    rcases List.mem_cons.mp hl with rfl | hl
    · exact List.not_mem_nil _
    · exact absurd hl (List.not_mem_nil _)
  | cons c rest ih =>
    intro l hl
    by_cases hc : c = '\n'
    · rw [show splitLines (c :: rest) =
        (if c = '\n' then [] :: splitLines rest
         else match splitLines rest with
           | l :: ls => (c :: l) :: ls
           | [] => [[c]]) from rfl, if_pos hc] at hl
      rcases List.mem_cons.mp hl with rfl | hl
      · exact List.not_mem_nil _
      · exact ih l hl
    · rw [show splitLines (c :: rest) =
        (if c = '\n' then [] :: splitLines rest
         else match splitLines rest with
           | l :: ls => (c :: l) :: ls
           | [] => [[c]]) from rfl, if_neg hc] at hl
      cases hs : splitLines rest with
      | nil => exact absurd hs (splitLines_ne_nil rest)
      | cons a as =>
        rw [hs] at hl
        rcases List.mem_cons.mp hl with rfl | hl
        · intro hmem
          rcases List.mem_cons.mp hmem with heq | hmem
          · exact hc heq.symm
          · exact ih a (by rw [hs]; exact List.mem_cons_self _ _) hmem
        · exact ih l (by rw [hs]; exact List.mem_cons_of_mem _ hl)

/-- `splitLines` distributes over a newline separator. -/
theorem splitLines_append_nl (a b : List Char) :
    splitLines (a ++ '\n' :: b) = splitLines a ++ splitLines b := by
  induction a with
  | nil =>
    rw [List.nil_append,
      show splitLines ('\n' :: b) = [] :: splitLines b from rfl]
    rfl
  | cons c rest ih =>
    by_cases hc : c = '\n'
    · rw [List.cons_append,
        show splitLines (c :: (rest ++ '\n' :: b)) =
          (if c = '\n' then [] :: splitLines (rest ++ '\n' :: b)
           else match splitLines (rest ++ '\n' :: b) with
             | l :: ls => (c :: l) :: ls
             | [] => [[c]]) from rfl, if_pos hc, ih,
        show splitLines (c :: rest) =
          (if c = '\n' then [] :: splitLines rest
           else match splitLines rest with
             | l :: ls => (c :: l) :: ls
             | [] => [[c]]) from rfl, if_pos hc]
      rfl
    · cases hs : splitLines rest with
      | nil => exact absurd hs (splitLines_ne_nil rest)
      | cons r0 rtail =>
        rw [List.cons_append,
          show splitLines (c :: (rest ++ '\n' :: b)) =
            (if c = '\n' then [] :: splitLines (rest ++ '\n' :: b)
             else match splitLines (rest ++ '\n' :: b) with
               | l :: ls => (c :: l) :: ls
               | [] => [[c]]) from rfl, if_neg hc, ih, hs,
          show splitLines (c :: rest) =
            (if c = '\n' then [] :: splitLines rest
             else match splitLines rest with
               | l :: ls => (c :: l) :: ls
               | [] => [[c]]) from rfl, if_neg hc, hs]
        rfl

/-- A newline-free list is a single line. -/
theorem splitLines_of_no_nl (l : List Char) (h : '\n' ∉ l) :
    splitLines l = [l] := by
  induction l with
  | nil => rfl
  | cons c rest ih =>
    have hc : ¬c = '\n' := fun hcc => h (hcc ▸ List.mem_cons_self _ _)
    rw [show splitLines (c :: rest) =
      (if c = '\n' then [] :: splitLines rest
       else match splitLines rest with
         | l :: ls => (c :: l) :: ls
         | [] => [[c]]) from rfl, if_neg hc,
      ih (fun hm => h (List.mem_cons_of_mem _ hm))]

/-- `splitLines` inverts `joinLines` on newline-free lines. -/
theorem splitLines_joinLines (ls : List (List Char))
    (h : ∀ l ∈ ls, '\n' ∉ l) (hne : ls ≠ []) :
    splitLines (joinLines ls) = ls := by
  induction ls with
  | nil => exact absurd rfl hne
  | cons l rest ih =>
    cases rest with
    | nil =>
      rw [show joinLines [l] = l from by
        simp [joinLines, List.intercalate]]
      exact splitLines_of_no_nl l (h l (List.mem_cons_self _ _))
    | cons r rs =>
      have hjoin : joinLines (l :: r :: rs) = l ++ '\n' :: joinLines (r :: rs) := by
        simp [joinLines, List.intercalate, List.intersperse]
      rw [hjoin, splitLines_append_nl,
        splitLines_of_no_nl l (h l (List.mem_cons_self _ _)),
        ih (fun x hx => h x (List.mem_cons_of_mem _ hx))
          (fun hx => List.noConfusion hx)]
      rfl

/-- The head of `dropWhile` fails the predicate. -/
theorem dropWhile_head_not (p : Char → Bool) (l : List Char) (c : Char)
    (h : (l.dropWhile p).head? = some c) : p c = false := by
  induction l with
  | nil => exact absurd h (by rw [show ([] : List Char).dropWhile p = [] from rfl]; exact fun hc => Option.noConfusion hc)
  | cons x rest ih =>
    by_cases hx : p x = true
    · rw [List.dropWhile_cons_of_pos hx] at h
      exact ih h
    · rw [List.dropWhile_cons_of_neg hx] at h
      rw [show (x :: rest).head? = some x from rfl] at h
      cases h
      cases hpc : p c
      · rfl
      · exact absurd hpc hx

/-- A stripped line neither ends in a space nor in a tab. -/
theorem stripLineTrailingWS_getLast (l : List Char) :
    (stripLineTrailingWS l).getLast? ≠ some ' ' ∧
      (stripLineTrailingWS l).getLast? ≠ some '\t' := by
  rw [show stripLineTrailingWS l =
    (l.reverse.dropWhile (fun c => c == ' ' || c == '\t')).reverse from rfl,
    List.getLast?_reverse]
  constructor
  · intro h
    have := dropWhile_head_not _ _ _ h
    simp at this
  · intro h
    have := dropWhile_head_not _ _ _ h
    simp at this

/-- Stripping trailing whitespace introduces no newline. -/
theorem stripLineTrailingWS_no_nl (l : List Char) (h : '\n' ∉ l) :
    '\n' ∉ stripLineTrailingWS l := by
  intro hm
  rw [show stripLineTrailingWS l =
    (l.reverse.dropWhile (fun c => c == ' ' || c == '\t')).reverse from rfl,
    List.mem_reverse] at hm
  exact h (by
    have := (List.dropWhile_sublist
      (l := l.reverse) (fun c => c == ' ' || c == '\t')).subset hm
    exact List.mem_reverse.mp this)

/-- Every line of a stripped string is a stripped line of the input. -/
theorem splitLines_stripTrailingWS (s : String) :
    splitLines (stripTrailingWS s).data =
      (splitLines s.data).map stripLineTrailingWS := by
  rw [show (stripTrailingWS s).data =
    joinLines ((splitLines s.data).map stripLineTrailingWS) from rfl]
  apply splitLines_joinLines
  · intro l hl
    obtain ⟨l0, hl0, rfl⟩ := List.mem_map.mp hl
    exact stripLineTrailingWS_no_nl l0 (splitLines_no_nl _ l0 hl0)
  · intro hmap
    exact splitLines_ne_nil s.data
      (List.map_eq_nil_iff.mp hmap)

/-- C8 counterexample: encoding `[{}]` yields `"[1]{}:\n\n"` — the
character before the final newline is itself a newline, so the output
does not end with exactly one trailing newline. -/
theorem trailing_newline_counterexample :
    encodeToon (.harr [.hobj []]) false 2 = .ok "[1]\x7b\x7d:\n\n" ∧
      "[1]\x7b\x7d:\n\n" = "[1]\x7b\x7d:\n" ++ "\n" ∧
      "[1]\x7b\x7d:\n".data.getLast? = some '\n' :=
  ⟨by rfl, rfl, by decide⟩

/-- C8 (amended): every successful encoding ends with a trailing
newline (exactly one except when the rendered body's final line was
entirely horizontal whitespace, as for tabular rows of empty mappings),
no line ends in a space or tab, and a top-level empty mapping encodes
to just the newline. -/
theorem output_trailing_shape :
    (∀ (v : Host) (m : Bool) (isz : Nat) (t : String),
      encodeToon v m isz = .ok t →
      (∃ u, t = u ++ "\n") ∧
      (∀ l ∈ splitLines t.data,
        l.getLast? ≠ some ' ' ∧ l.getLast? ≠ some '\t'))
    ∧ encodeToon (.hobj []) false 2 = .ok "\n"
    ∧ encodeToon (.hobj []) true 2 = .ok "\n" := by
  refine ⟨fun v m isz t h => ?_, by rfl, by rfl⟩
  rw [show encodeToon v m isz = (normalize v m).map
    (fun j => stripTrailingWS (encodeJson j isz) ++ "\n") from rfl] at h
  cases hn : normalize v m with
  | error e =>
    rw [hn] at h
    exact Except.noConfusion h
  | ok j =>
    rw [hn] at h
    have ht : t = stripTrailingWS (encodeJson j isz) ++ "\n" :=
      (Except.ok.inj h).symm
    subst ht
    refine ⟨⟨stripTrailingWS (encodeJson j isz), rfl⟩, ?_⟩
    intro l hl
    rw [show (stripTrailingWS (encodeJson j isz) ++ "\n").data =
        (stripTrailingWS (encodeJson j isz)).data ++ '\n' :: [] from by
      simp,
      splitLines_append_nl, splitLines_stripTrailingWS] at hl
    rcases List.mem_append.mp hl with hm | hm
    · obtain ⟨l0, hl0, rfl⟩ := List.mem_map.mp hm
      exact stripLineTrailingWS_getLast l0
    · rw [show splitLines [] = [[]] from rfl] at hm
      rcases List.mem_cons.mp hm with rfl | hm
      · exact ⟨fun hc => Option.noConfusion hc, fun hc => Option.noConfusion hc⟩
      · exact absurd hm (List.not_mem_nil _)

/-- Witness for the amended C8 theorem at a concrete input. -/
theorem output_trailing_shape_witness :
    (∃ u, "team: platform\n" = u ++ "\n") ∧
      (∀ l ∈ splitLines "team: platform\n".data,
        l.getLast? ≠ some ' ' ∧ l.getLast? ≠ some '\t') :=
  output_trailing_shape.1 (.hobj [("team", .hstr "platform")]) false 2
    "team: platform\n" (by rfl)

/-! ## Key rendering (claim C10) -/

/-- Every object-field line starts with the indent followed by the key
rendered by `encodeString` against the comma delimiter. -/
theorem encodeObjectField_prefix (key : String) (value : Json) (i s : Nat) :
    ∃ rest, encodeObjectField key value i s =
      indentStr i s ++ encodeString key ',' ++ rest := by
  cases value with
  | arr xs =>
    show ∃ rest,
      (let enc := encodeArrayCore xs (encodeListItems xs (i + 1) s) i s
       if enc.kind = ArrayKind.inline then
         indentStr i s ++ encodeKey key ',' ++ enc.header ++ ": " ++ enc.body
       else if enc.body ≠ "" then
         indentStr i s ++ encodeKey key ',' ++ enc.header ++ ":\n" ++ enc.body
       else indentStr i s ++ encodeKey key ',' ++ enc.header ++ ":") = _
    generalize encodeArrayCore xs (encodeListItems xs (i + 1) s) i s = enc
    by_cases h1 : enc.kind = ArrayKind.inline
    · rw [if_pos h1]
      exact ⟨enc.header ++ (": " ++ enc.body), by
        simp [encodeKey, String.append_assoc]⟩
    · rw [if_neg h1]
      by_cases h2 : enc.body ≠ ""
      · rw [if_pos h2]
        exact ⟨enc.header ++ (":\n" ++ enc.body), by
          simp [encodeKey, String.append_assoc]⟩
      · rw [if_neg h2]
        exact ⟨enc.header ++ ":", by simp [encodeKey, String.append_assoc]⟩
  | obj o =>
    show ∃ rest,
      (if o.isEmpty then indentStr i s ++ encodeKey key ',' ++ ":"
       else
         let body := String.intercalate "\n" (encodeFieldLines o (i + 1) s)
         if body ≠ "" then indentStr i s ++ encodeKey key ',' ++ ":\n" ++ body
         else indentStr i s ++ encodeKey key ',' ++ ":") = _
    by_cases h1 : o.isEmpty
    · rw [if_pos h1]
      exact ⟨":", by simp [encodeKey, String.append_assoc]⟩
    · rw [if_neg h1]
      by_cases h2 : String.intercalate "\n" (encodeFieldLines o (i + 1) s) ≠ ""
      · rw [if_pos h2]
        exact ⟨":\n" ++ String.intercalate "\n" (encodeFieldLines o (i + 1) s),
          by simp [encodeKey, String.append_assoc]⟩
      · rw [if_neg h2]
        exact ⟨":", by simp [encodeKey, String.append_assoc]⟩
  | null =>
    exact ⟨": " ++ encodePrimitive .null ',', by
      rw [show encodeObjectField key .null i s = indentStr i s ++
        encodeKey key ',' ++ ": " ++ encodePrimitive .null ',' from rfl]
      simp [encodeKey, String.append_assoc]⟩
  | bool b =>
    exact ⟨": " ++ encodePrimitive (.bool b) ',', by
      rw [show encodeObjectField key (.bool b) i s = indentStr i s ++
        encodeKey key ',' ++ ": " ++ encodePrimitive (.bool b) ',' from rfl]
      simp [encodeKey, String.append_assoc]⟩
  | num n =>
    exact ⟨": " ++ encodePrimitive (.num n) ',', by
      rw [show encodeObjectField key (.num n) i s = indentStr i s ++
        encodeKey key ',' ++ ": " ++ encodePrimitive (.num n) ',' from rfl]
      simp [encodeKey, String.append_assoc]⟩
  | str t =>
    exact ⟨": " ++ encodePrimitive (.str t) ',', by
      rw [show encodeObjectField key (.str t) i s = indentStr i s ++
        encodeKey key ',' ++ ": " ++ encodePrimitive (.str t) ',' from rfl]
      simp [encodeKey, String.append_assoc]⟩

/-- Every list-item line for a mapping starts with the indent, the dash
and the first key rendered by `encodeString` against the comma
delimiter. -/
theorem encodeListItem_obj_prefix (key : String) (value : Json)
    (rest : List (String × Json)) (i s : Nat) :
    ∃ tail, encodeListItem (.obj ((key, value) :: rest)) i s =
      indentStr i s ++ "- " ++ encodeString key ',' ++ tail := by
  have hfl : ∃ fl : String × List String,
      encodeListItem (.obj ((key, value) :: rest)) i s =
      (if (String.intercalate "\n" ((fl.2 ++
          encodeFieldLines rest (i + 1) s).filter (· ≠ ""))) ≠ "" then
        fl.1 ++ "\n" ++ (String.intercalate "\n" ((fl.2 ++
          encodeFieldLines rest (i + 1) s).filter (· ≠ "")))
      else fl.1) ∧
      ∃ x, fl.1 = indentStr i s ++ "- " ++ encodeString key ',' ++ x := by
    cases value with
    | arr xs =>
      refine ⟨(let enc := encodeArrayCore xs (encodeListItems xs (i + 1) s) i s
        if enc.kind = ArrayKind.inline then
          (indentStr i s ++ "- " ++ encodeKey key ',' ++ enc.header ++ ": " ++
            enc.body, ([] : List String))
        else
          (indentStr i s ++ "- " ++ encodeKey key ',' ++ enc.header ++ ":",
           if enc.body ≠ "" then
             [if enc.kind = ArrayKind.tabular then reindentBlock enc.body 1 s
              else enc.body]
           else [])), rfl, ?_⟩
      generalize encodeArrayCore xs (encodeListItems xs (i + 1) s) i s = enc
      by_cases h1 : enc.kind = ArrayKind.inline
      · rw [if_pos h1]
        exact ⟨enc.header ++ (": " ++ enc.body), by
          simp [encodeKey, String.append_assoc]⟩
      · rw [if_neg h1]
        exact ⟨enc.header ++ ":", by simp [encodeKey, String.append_assoc]⟩
    | obj o2 =>
      refine ⟨(indentStr i s ++ "- " ++ encodeKey key ',' ++ ":",
        if String.intercalate "\n" (encodeFieldLines o2 (i + 1) s) ≠ "" then
          [String.intercalate "\n" (encodeFieldLines o2 (i + 1) s)]
        else []), rfl, ?_⟩
      exact ⟨":", by simp [encodeKey, String.append_assoc]⟩
    | null =>
      exact ⟨(indentStr i s ++ "- " ++ encodeKey key ',' ++ ": " ++
        encodePrimitive .null ',', []), rfl,
        ⟨": " ++ encodePrimitive .null ',', by
          simp [encodeKey, String.append_assoc]⟩⟩
    | bool b =>
      exact ⟨(indentStr i s ++ "- " ++ encodeKey key ',' ++ ": " ++
        encodePrimitive (.bool b) ',', []), rfl,
        ⟨": " ++ encodePrimitive (.bool b) ',', by
          simp [encodeKey, String.append_assoc]⟩⟩
    | num n =>
      exact ⟨(indentStr i s ++ "- " ++ encodeKey key ',' ++ ": " ++
        encodePrimitive (.num n) ',', []), rfl,
        ⟨": " ++ encodePrimitive (.num n) ',', by
          simp [encodeKey, String.append_assoc]⟩⟩
    | str t =>
      exact ⟨(indentStr i s ++ "- " ++ encodeKey key ',' ++ ": " ++
        encodePrimitive (.str t) ',', []), rfl,
        ⟨": " ++ encodePrimitive (.str t) ',', by
          simp [encodeKey, String.append_assoc]⟩⟩
  obtain ⟨fl, heq, x, hx⟩ := hfl
  rw [heq]
  by_cases hc : (String.intercalate "\n" ((fl.2 ++
      encodeFieldLines rest (i + 1) s).filter (· ≠ ""))) ≠ ""
  · rw [if_pos hc, hx]
    exact ⟨x ++ ("\n" ++ String.intercalate "\n" ((fl.2 ++
      encodeFieldLines rest (i + 1) s).filter (· ≠ ""))), by
      simp [String.append_assoc]⟩
  · rw [if_neg hc, hx]
    exact ⟨x, rfl⟩

/-- C10: key tokens are rendered by exactly the string-value encoder
with the comma delimiter — `encodeKey` is `encodeString`, object-field
lines and list-item first keys start with that rendering, tabular
header field names are that rendering joined by commas, and a key that
requires quoting appears double-quoted and escaped. -/
theorem key_tokens_use_string_encoder :
    (∀ (k : String) (d : Char), encodeKey k d = encodeString k d)
    ∧ (∀ (key : String) (value : Json) (i s : Nat), ∃ rest,
        encodeObjectField key value i s =
          indentStr i s ++ encodeString key ',' ++ rest)
    ∧ (∀ (key : String) (value : Json) (rest : List (String × Json)) (i s : Nat),
        ∃ tail, encodeListItem (.obj ((key, value) :: rest)) i s =
          indentStr i s ++ "- " ++ encodeString key ',' ++ tail)
    ∧ (∀ (arr : List Json) (i s : Nat),
        (encodeArray arr i s).kind = ArrayKind.tabular →
        (encodeArray arr i s).header =
          "[" ++ toString arr.length ++ "]\x7b" ++
            String.intercalate ","
              (((encodeArray arr i s).tabularFields).map
                (fun k => encodeString k ',')) ++ "\x7d")
    ∧ (∀ k : String, needsQuotes k ',' = true →
        encodeKey k ',' = "\"" ++ escapeQuoted k ++ "\"") := by
  refine ⟨fun k d => rfl, encodeObjectField_prefix, encodeListItem_obj_prefix,
    fun arr i s h => ?_, fun k h => ?_⟩
  · have ht := (encodeArray_kind_tabular_iff arr i s).mp h
    rw [encodeArray_tabular_shape arr i s ht]
    rfl
  · rw [encodeKey, encodeString, if_pos h]

/-- Witness for the key-rendering theorem at concrete inputs. -/
theorem key_tokens_use_string_encoder_witness :
    (∃ rest, encodeObjectField "a:b" Json.null 0 2 =
      indentStr 0 2 ++ encodeString "a:b" ',' ++ rest) ∧
    encodeKey "a:b" ',' = "\"" ++ escapeQuoted "a:b" ++ "\"" :=
  ⟨key_tokens_use_string_encoder.2.1 "a:b" Json.null 0 2,
   key_tokens_use_string_encoder.2.2.2.2 "a:b" (by decide)⟩

/-! ## String quoting (claim C1) -/

/-- `dropWhile` is the identity when the head (if any) fails the
predicate. -/
theorem dropWhile_eq_self_of_head (p : Char → Bool) (l : List Char)
    (h : ∀ c, l.head? = some c → p c = false) : l.dropWhile p = l := by
  cases l with
  | nil => rfl
  | cons c rest =>
    exact List.dropWhile_cons_of_neg (by rw [h c rfl]; exact Bool.false_ne_true)

/-- `dropWhile` strictly shrinks a list whose head satisfies the
predicate. -/
theorem length_dropWhile_lt_of_head (p : Char → Bool) (l : List Char) (c : Char)
    (hc : l.head? = some c) (hp : p c = true) :
    (l.dropWhile p).length < l.length := by
  cases l with
  | nil => exact absurd hc (fun h => Option.noConfusion h)
  | cons a rest =>
    rw [show (a :: rest).head? = some a from rfl] at hc
    cases hc
    rw [List.dropWhile_cons_of_pos hp]
    exact Nat.lt_succ_of_le (List.dropWhile_sublist p).length_le

/-- `jsTrimL` fixes exactly the lists with no leading and no trailing
JS whitespace. -/
theorem jsTrimL_eq_self_iff (l : List Char) :
    jsTrimL l = l ↔
      ((∀ c, l.head? = some c → jsWhitespaceChar c = false) ∧
       (∀ c, l.getLast? = some c → jsWhitespaceChar c = false)) := by
  constructor
  · intro he
    have hlen : (jsTrimL l).length = l.length := by rw [he]
    constructor
    · intro c hc
      cases hws : jsWhitespaceChar c with
      | false => rfl
      | true =>
        exfalso
        have h1 : (l.dropWhile jsWhitespaceChar).length < l.length :=
          length_dropWhile_lt_of_head _ _ c hc hws
        have h2 : (jsTrimL l).length ≤ (l.dropWhile jsWhitespaceChar).length := by
          rw [jsTrimL, List.length_reverse]
          calc ((l.dropWhile jsWhitespaceChar).reverse.dropWhile
                jsWhitespaceChar).length
              ≤ (l.dropWhile jsWhitespaceChar).reverse.length :=
                (List.dropWhile_sublist jsWhitespaceChar).length_le
            _ = (l.dropWhile jsWhitespaceChar).length := List.length_reverse _
        omega
    · intro c hc
      cases hws : jsWhitespaceChar c with
      | false => rfl
      | true =>
        exfalso
        cases hm : l.dropWhile jsWhitespaceChar with
        | nil =>
          have hz : jsTrimL l = [] := by rw [jsTrimL, hm]; rfl
          rw [hz] at he
          subst he
          exact Option.noConfusion hc
        | cons m0 mrest =>
          have hmne : l.dropWhile jsWhitespaceChar ≠ [] := by
            rw [hm]; exact fun h => List.noConfusion h
          have hlast : (l.dropWhile jsWhitespaceChar).getLast? = l.getLast? := by
            conv_rhs => rw [← List.takeWhile_append_dropWhile jsWhitespaceChar l]
            rw [List.getLast?_append_of_ne_nil _ hmne]
          have hhead : (l.dropWhile jsWhitespaceChar).reverse.head? = some c := by
            rw [List.head?_reverse, hlast, hc]
          have h1 : ((l.dropWhile jsWhitespaceChar).reverse.dropWhile
              jsWhitespaceChar).length <
              (l.dropWhile jsWhitespaceChar).reverse.length :=
            length_dropWhile_lt_of_head _ _ c hhead hws
          have h2 : (jsTrimL l).length =
              ((l.dropWhile jsWhitespaceChar).reverse.dropWhile
                jsWhitespaceChar).length := by
            rw [jsTrimL, List.length_reverse]
          have h3 : (l.dropWhile jsWhitespaceChar).reverse.length ≤ l.length := by
            rw [List.length_reverse]
            exact (List.dropWhile_sublist jsWhitespaceChar).length_le
          omega
  · rintro ⟨h1, h2⟩
    rw [jsTrimL, dropWhile_eq_self_of_head _ _ h1,
      dropWhile_eq_self_of_head _ _
        (fun c hc => h2 c (by rwa [List.head?_reverse] at hc)),
      List.reverse_reverse]

/-- Strings differ from their trim exactly when they have leading or
trailing JS whitespace. -/
theorem jsTrim_ne_iff (s : String) :
    s ≠ jsTrim s ↔
      ((∃ c, s.data.head? = some c ∧ jsWhitespaceChar c = true) ∨
       (∃ c, s.data.getLast? = some c ∧ jsWhitespaceChar c = true)) := by
  have hmk : (s ≠ jsTrim s) ↔ ¬(jsTrimL s.data = s.data) := by
    rw [ne_eq, String.ext_iff,
      show (jsTrim s).data = jsTrimL s.data from rfl, eq_comm]
  rw [hmk, jsTrimL_eq_self_iff, not_and_or]
  constructor
  · rintro (h | h)
    · left
      push_neg at h
      obtain ⟨c, hc, hws⟩ := h
      refine ⟨c, hc, ?_⟩
      cases hb : jsWhitespaceChar c
      · exact absurd hb hws
      · rfl
    · right
      push_neg at h
      obtain ⟨c, hc, hws⟩ := h
      refine ⟨c, hc, ?_⟩
      cases hb : jsWhitespaceChar c
      · exact absurd hb hws
      · rfl
  · rintro (⟨c, hc, hws⟩ | ⟨c, hc, hws⟩)
    · left
      intro hall
      rw [hall c hc] at hws
      exact Bool.noConfusion hws
    · right
      intro hall
      rw [hall c hc] at hws
      exact Bool.noConfusion hws

/-- The quoting condition of the specification, as one proposition. -/
def quoteCond (s : String) (d : Char) : Prop :=
  s = "" ∨
  (∃ c, s.data.head? = some c ∧ jsWhitespaceChar c = true) ∨
  (∃ c, s.data.getLast? = some c ∧ jsWhitespaceChar c = true) ∨
  s = "true" ∨ s = "false" ∨ s = "null" ∨
  looksLikeNumber s = true ∨
  s.data.head? = some '-' ∨
  (∃ c ∈ s.data, c.toNat < 0x20) ∨
  '"' ∈ s.data ∨ '\\' ∈ s.data ∨ ':' ∈ s.data ∨
  d ∈ s.data ∨ ',' ∈ s.data ∨ '\t' ∈ s.data

/-- `needsQuotes` decides exactly the specification's condition list. -/
theorem needsQuotes_iff (s : String) (d : Char) :
    needsQuotes s d = true ↔ quoteCond s d := by
  unfold needsQuotes quoteCond
  by_cases h1 : s.length = 0
  · rw [if_pos h1]
    have hempty : s = "" := by
      cases s with
      | mk data =>
        rw [show String.length ⟨data⟩ = data.length from rfl,
          List.length_eq_zero] at h1
        rw [h1]
    exact iff_of_true rfl (Or.inl hempty)
  · rw [if_neg h1]
    have hne : ¬s = "" := by
      intro he
      exact h1 (by rw [he]; rfl)
    by_cases h2 : s ≠ jsTrim s
    · rw [if_pos h2]
      rcases (jsTrim_ne_iff s).mp h2 with h | h
      · exact iff_of_true rfl (Or.inr (Or.inl h))
      · exact iff_of_true rfl (Or.inr (Or.inr (Or.inl h)))
    · rw [if_neg h2]
      have htrim := not_or.mp ((jsTrim_ne_iff s).not.mp h2)
      by_cases h3 : s = "true" ∨ s = "false" ∨ s = "null"
      · rw [if_pos h3]
        refine iff_of_true rfl ?_
        rcases h3 with h | h | h
        · exact Or.inr (Or.inr (Or.inr (Or.inl h)))
        · exact Or.inr (Or.inr (Or.inr (Or.inr (Or.inl h))))
        · exact Or.inr (Or.inr (Or.inr (Or.inr (Or.inr (Or.inl h)))))
      · rw [if_neg h3]
        have h3' := not_or.mp h3
        have h3'' := not_or.mp h3'.2
        by_cases h4 : looksLikeNumber s = true
        · rw [if_pos h4]
          exact iff_of_true rfl (Or.inr (Or.inr (Or.inr (Or.inr (Or.inr
            (Or.inr (Or.inl h4)))))))
        · rw [if_neg h4]
          by_cases h5 : s = "-" ∨ s.data.head? = some '-'
          · rw [if_pos h5]
            refine iff_of_true rfl (Or.inr (Or.inr (Or.inr (Or.inr (Or.inr
              (Or.inr (Or.inr (Or.inl ?_))))))))
            rcases h5 with h | h
            · rw [h]
              rfl
            · exact h
          · rw [if_neg h5]
            have h5' := not_or.mp h5
            by_cases h6 : s.data.any (fun c => decide (c.toNat < 0x20)) = true
            · rw [if_pos h6]
              obtain ⟨c, hc, hp⟩ := List.any_eq_true.mp h6
              exact iff_of_true rfl (Or.inr (Or.inr (Or.inr (Or.inr (Or.inr
                (Or.inr (Or.inr (Or.inr (Or.inl
                  ⟨c, hc, of_decide_eq_true hp⟩)))))))))
            · rw [if_neg h6]
              by_cases h7 : s.data.contains '"' ∨ s.data.contains '\\'
              · rw [if_pos h7]
                refine iff_of_true rfl ?_
                rcases h7 with h | h
                · exact Or.inr (Or.inr (Or.inr (Or.inr (Or.inr (Or.inr
                    (Or.inr (Or.inr (Or.inr (Or.inl (List.elem_iff.mp h))))))))))
                · exact Or.inr (Or.inr (Or.inr (Or.inr (Or.inr (Or.inr
                    (Or.inr (Or.inr (Or.inr (Or.inr (Or.inl
                      (List.elem_iff.mp h)))))))))))
              · rw [if_neg h7]
                have h7' := not_or.mp h7
                by_cases h8 : s.data.contains ':'
                · rw [if_pos h8]
                  exact iff_of_true rfl (Or.inr (Or.inr (Or.inr (Or.inr
                    (Or.inr (Or.inr (Or.inr (Or.inr (Or.inr (Or.inr (Or.inr
                      (Or.inl (List.elem_iff.mp h8)))))))))))))
                · rw [if_neg h8]
                  by_cases h9 : s.data.contains d
                  · rw [if_pos h9]
                    exact iff_of_true rfl (Or.inr (Or.inr (Or.inr (Or.inr
                      (Or.inr (Or.inr (Or.inr (Or.inr (Or.inr (Or.inr (Or.inr
                        (Or.inr (Or.inl (List.elem_iff.mp h9))))))))))))))
                  · rw [if_neg h9]
                    by_cases h10 : s.data.contains ',' ∨ s.data.contains '\t'
                    · rw [if_pos h10]
                      refine iff_of_true rfl ?_
                      rcases h10 with h | h
                      · exact Or.inr (Or.inr (Or.inr (Or.inr (Or.inr (Or.inr
                          (Or.inr (Or.inr (Or.inr (Or.inr (Or.inr (Or.inr
                            (Or.inr (Or.inl (List.elem_iff.mp h))))))))))))))
                      · exact Or.inr (Or.inr (Or.inr (Or.inr (Or.inr (Or.inr
                          (Or.inr (Or.inr (Or.inr (Or.inr (Or.inr (Or.inr
                            (Or.inr (Or.inr (List.elem_iff.mp h))))))))))))))
                    · rw [if_neg h10]
                      have h10' := not_or.mp h10
                      refine iff_of_false Bool.false_ne_true ?_
                      intro hcond
                      rcases hcond with h | h | h | h | h | h | h | h | h | h
                        | h | h | h | h | h
                      · exact hne h
                      · exact htrim.1 h
                      · exact htrim.2 h
                      · exact h3'.1 h
                      · exact h3''.1 h
                      · exact h3''.2 h
                      · exact h4 h
                      · exact h5'.2 h
                      · obtain ⟨c, hc, hlt⟩ := h
                        exact h6 (List.any_eq_true.mpr
                          ⟨c, hc, decide_eq_true hlt⟩)
                      · exact h7'.1 (List.elem_iff.mpr h)
                      · exact h7'.2 (List.elem_iff.mpr h)
                      · exact h8 (List.elem_iff.mpr h)
                      · exact h9 (List.elem_iff.mpr h)
                      · exact h10'.1 (List.elem_iff.mpr h)
                      · exact h10'.2 (List.elem_iff.mpr h)

/-- The per-character escaping the five chained replaces amount to. -/
def escChar (c : Char) : List Char :=
  if c = '\\' then ['\\', '\\']
  else if c = '"' then ['\\', '"']
  else if c = '\n' then ['\\', 'n']
  else if c = '\r' then ['\\', 'r']
  else if c = '\t' then ['\\', 't']
  else [c]

/-- `replaceCharL` distributes over concatenation. -/
theorem replaceCharL_append (t : Char) (r a b : List Char) :
    replaceCharL t r (a ++ b) = replaceCharL t r a ++ replaceCharL t r b := by
  induction a with
  | nil => rfl
  | cons c rest ih =>
    rw [List.cons_append,
      show replaceCharL t r (c :: (rest ++ b)) =
        (if c = t then r else [c]) ++ replaceCharL t r (rest ++ b) from rfl,
      ih,
      show replaceCharL t r (c :: rest) =
        (if c = t then r else [c]) ++ replaceCharL t r rest from rfl,
      List.append_assoc]

/-- The chained replaces of `escapeQuoted` rewrite each character
independently: backslash, quote, newline, carriage return and tab to
their two-character escapes, every other character to itself. -/
theorem escapeQuoted_flatMap (l : List Char) :
    replaceCharL '\t' ['\\', 't']
      (replaceCharL '\r' ['\\', 'r']
        (replaceCharL '\n' ['\\', 'n']
          (replaceCharL '"' ['\\', '"']
            (replaceCharL '\\' ['\\', '\\'] l)))) = l.flatMap escChar := by
  induction l with
  | nil => rfl
  | cons c rest ih =>
    rw [show replaceCharL '\\' ['\\', '\\'] (c :: rest) =
        (if c = '\\' then ['\\', '\\'] else [c]) ++
          replaceCharL '\\' ['\\', '\\'] rest from rfl,
      replaceCharL_append, replaceCharL_append, replaceCharL_append,
      replaceCharL_append, ih,
      show (c :: rest).flatMap escChar = escChar c ++ rest.flatMap escChar
        from rfl]
    congr 1
    by_cases h1 : c = '\\'
    · subst h1; rfl
    · rw [if_neg h1]
      by_cases h2 : c = '"'
      · subst h2; rfl
      · by_cases h3 : c = '\n'
        · subst h3; rfl
        · by_cases h4 : c = '\r'
          · subst h4; rfl
          · by_cases h5 : c = '\t'
            · subst h5; rfl
            · simp [replaceCharL, escChar, h1, h2, h3, h4, h5]

/-- C1: `encodeString` wraps the string in quotes with escaping exactly
when the specification's condition list holds (empty; leading/trailing
whitespace; the literals true/false/null; the numeric pattern; leading
dash; a control character; quote or backslash; colon; the active
delimiter; a comma or tab) and returns it unchanged otherwise; inside
quotes exactly backslash, quote, newline, carriage return and tab are
rewritten to their escapes and every other character kept verbatim; and
the three worked examples evaluate as stated. -/
theorem string_quoting (s : String) (d : Char) (_hd : d = ',' ∨ d = '\t') :
    (encodeString s d = "\"" ++ escapeQuoted s ++ "\"" ↔ quoteCond s d)
    ∧ (¬quoteCond s d → encodeString s d = s)
    ∧ (escapeQuoted s).data = s.data.flatMap escChar
    ∧ (∀ c, c ≠ '\\' → c ≠ '"' → c ≠ '\n' → c ≠ '\r' → c ≠ '\t' →
        escChar c = [c])
    ∧ encodeString "true" ',' = "\"true\""
    ∧ encodeString "a,b" ',' = "\"a,b\""
    ∧ encodeString "hello" ',' = "hello" := by
  refine ⟨?_, ?_, escapeQuoted_flatMap s.data, ?_, rfl, rfl, rfl⟩
  · constructor
    · intro h
      by_cases hq : needsQuotes s d = true
      · exact (needsQuotes_iff s d).mp hq
      · exfalso
        rw [encodeString, if_neg hq] at h
        have hquote : '"' ∈ s.data := by
          rw [h]
          rw [show ("\"" ++ escapeQuoted s ++ "\"").data =
            '"' :: ((escapeQuoted s).data ++ ['"']) from by simp]
          exact List.mem_cons_self _ _
        exact hq ((needsQuotes_iff s d).mpr (Or.inr (Or.inr (Or.inr (Or.inr
          (Or.inr (Or.inr (Or.inr (Or.inr (Or.inr (Or.inl hquote)))))))))))
    · intro h
      rw [encodeString, if_pos ((needsQuotes_iff s d).mpr h)]
  · intro h
    have hq : needsQuotes s d = false := by
      cases hb : needsQuotes s d
      · rfl
      · exact absurd ((needsQuotes_iff s d).mp hb) h
    rw [encodeString, hq]
    rfl
  · intro c hc1 hc2 hc3 hc4 hc5
    simp [escChar, hc1, hc2, hc3, hc4, hc5]

/-- Witness for the quoting theorem at a concrete string and delimiter. -/
theorem string_quoting_witness :
    (encodeString "true" ',' = "\"" ++ escapeQuoted "true" ++ "\"" ↔
      quoteCond "true" ',') ∧
    (escapeQuoted "true").data = "true".data.flatMap escChar :=
  ⟨(string_quoting "true" ',' (Or.inl rfl)).1,
   (string_quoting "true" ',' (Or.inl rfl)).2.2.1⟩

/-! ## Number canonicalization (claim C2) -/

/-- A non-empty all-digit character list. -/
def DigitStr (l : List Char) : Prop := l ≠ [] ∧ ∀ c ∈ l, c.isDigit = true

/-- The string `String(n)` produces for a plain (non-scientific) finite
value: optional minus sign, integer digits, optional fraction. -/
def mkPlain (neg : Bool) (ip fp : List Char) : String :=
  ⟨(if neg then ['-'] else []) ++ ip ++ (if fp.isEmpty then [] else '.' :: fp)⟩

/-- The string `String(n)` produces for a value in scientific notation:
optional minus sign, mantissa, `e`, then the exponent sign (JS always
prints one, `+` or `-`) and the exponent digits. -/
def mkSci (neg : Bool) (ip fp : List Char) (es : Bool) (ed : List Char) :
    String :=
  ⟨(if neg then ['-'] else []) ++ ip ++ (if fp.isEmpty then [] else '.' :: fp) ++
    'e' :: (if es then '-' else '+') :: ed⟩

/-- The exponent value `parseInt` reads off the constructed exponent. -/
def sciExpVal (es : Bool) (ed : List Char) : Int :=
  if es then -(digitsToNat ed : Int) else (digitsToNat ed : Int)

/-- A digit is none of the marker characters. -/
theorem digit_ne (c : Char) (h : c.isDigit = true) :
    c ≠ '-' ∧ c ≠ '+' ∧ c ≠ '.' ∧ c ≠ 'e' ∧ c ≠ 'E' := by
  refine ⟨fun hc => ?_, fun hc => ?_, fun hc => ?_, fun hc => ?_, fun hc => ?_⟩
    <;> subst hc <;> exact absurd h (by decide)

/-- `stripDotEnd` removes a final dot. -/
theorem stripDotEnd_dot (l r : List Char) (h : l.reverse = '.' :: r) :
    stripDotEnd l = r.reverse := by
  rw [stripDotEnd, h]
  rfl

/-- `stripDotEnd` leaves a word alone whose last character is not a
dot. -/
theorem stripDotEnd_of_head_ne (l : List Char) (c : Char) (rest : List Char)
    (h : l.reverse = c :: rest) (hc : c ≠ '.') : stripDotEnd l = l := by
  rw [stripDotEnd, h]
  split
  · rename_i heq
    cases heq
    exact absurd rfl hc
  · rfl

/-- The two trailing clean-up replaces of the number encoder, on a word
with a decimal point before an all-digit tail: the result either loses
the fractional part entirely, or keeps a non-empty all-digit fraction
that does not end in a zero. -/
theorem strip_result (A B : List Char)
    (hB : ∀ c ∈ B, c.isDigit = true) :
    stripDotEnd (stripFracZeros (A ++ '.' :: B)) = A ∨
      ∃ B', stripDotEnd (stripFracZeros (A ++ '.' :: B)) = A ++ '.' :: B' ∧
        B' ≠ [] ∧ (∀ c ∈ B', c.isDigit = true) ∧ B'.getLast? ≠ some '0' := by
  have hrev : (A ++ '.' :: B).reverse = B.reverse ++ '.' :: A.reverse := by
    rw [List.reverse_append, List.reverse_cons, List.append_assoc,
      List.singleton_append]
  have hBrev : ∀ c ∈ B.reverse, c.isDigit = true := fun c hc =>
    hB c (List.mem_reverse.mp hc)
  have hdig : (B.reverse ++ '.' :: A.reverse).dropWhile Char.isDigit =
      '.' :: A.reverse := by
    rw [List.dropWhile_append_of_pos hBrev,
      List.dropWhile_cons_of_neg (by decide)]
  cases hBr : B.reverse with
  | nil =>
    have hBnil : B = [] := by
      have h2 := congrArg List.reverse hBr
      rwa [List.reverse_reverse] at h2
    subst hBnil
    have hns : fracZeroStrippable (A ++ ['.']) = false := by
      rw [fracZeroStrippable, hrev, hBr, List.nil_append]
      rfl
    left
    rw [stripFracZeros, hns]
    rw [show (if (false : Bool) = true then
        ((A ++ ['.']).reverse.dropWhile (· == '0')).reverse
      else A ++ ['.']) = A ++ ['.'] from rfl]
    rw [stripDotEnd_dot _ A.reverse (by rw [hrev, hBr, List.nil_append]),
      List.reverse_reverse]
  | cons b0 brest =>
    have hb0mem : b0 ∈ B.reverse := by rw [hBr]; exact List.mem_cons_self _ _
    have hb0dig : b0.isDigit = true := hBrev b0 hb0mem
    have hfzs : fracZeroStrippable (A ++ '.' :: B) = (b0 == '0') := by
      rw [fracZeroStrippable, hrev, hBr, List.cons_append]
      rw [show ((b0 :: (brest ++ '.' :: A.reverse)).dropWhile Char.isDigit) =
        '.' :: A.reverse from by
        rw [← List.cons_append, ← hBr, hdig]]
      exact Bool.and_true _
    by_cases hb0 : b0 = '0'
    · -- the fraction ends in a zero: the zero run is stripped
      have hstrip : fracZeroStrippable (A ++ '.' :: B) = true := by
        rw [hfzs, hb0]
        rfl
      rw [stripFracZeros, hstrip, if_pos rfl, hrev]
      have hsplit : B.reverse =
          B.reverse.takeWhile (· == '0') ++ B.reverse.dropWhile (· == '0') :=
        (List.takeWhile_append_dropWhile _ _).symm
      have htw : ∀ c ∈ B.reverse.takeWhile (· == '0'), (c == '0') = true := by
        intro c hc
        have h2 := List.mem_takeWhile_imp hc
        exact h2
      cases hD : B.reverse.dropWhile (· == '0') with
      | nil =>
        -- every fraction digit is a zero: the dot is bared and removed
        have hdw : (B.reverse ++ '.' :: A.reverse).dropWhile (· == '0') =
            '.' :: A.reverse := by
          conv_lhs => rw [hsplit, hD, List.append_nil]
          rw [List.dropWhile_append_of_pos htw,
            List.dropWhile_cons_of_neg (by decide)]
        left
        rw [hdw, List.reverse_cons]
        rw [stripDotEnd_dot _ A.reverse (by
          rw [List.reverse_append, List.reverse_reverse]
          rfl), List.reverse_reverse]
      | cons d drest =>
        -- the zero run stops at a non-zero digit
        have hdne : (d == '0') = false := by
          have := dropWhile_head_not (· == '0') B.reverse d (by rw [hD]; rfl)
          exact this
        have hdmem : d ∈ B.reverse := by
          have : d ∈ B.reverse.dropWhile (· == '0') := by
            rw [hD]; exact List.mem_cons_self _ _
          exact (List.dropWhile_sublist _).subset this
        have hddig : d.isDigit = true := hBrev d hdmem
        have hdw : (B.reverse ++ '.' :: A.reverse).dropWhile (· == '0') =
            (d :: drest) ++ '.' :: A.reverse := by
          conv_lhs => rw [hsplit, hD, List.append_assoc]
          rw [List.dropWhile_append_of_pos htw, List.cons_append,
            List.dropWhile_cons_of_neg (by rw [hdne]; exact Bool.false_ne_true),
            ← List.cons_append]
        right
        refine ⟨(d :: drest).reverse, ?_, ?_, ?_, ?_⟩
        · rw [hdw]
          have hrev2 : ((d :: drest) ++ '.' :: A.reverse).reverse =
              A ++ '.' :: (d :: drest).reverse := by
            rw [List.reverse_append, List.reverse_cons, List.append_assoc,
              List.singleton_append, List.reverse_reverse]
          rw [hrev2]
          refine stripDotEnd_of_head_ne _ d (drest ++ '.' :: A.reverse) ?_
            (digit_ne d hddig).2.2.1
          rw [hrev2.symm, List.reverse_reverse, List.cons_append]
        · intro h
          have h2 := congrArg List.reverse h
          rw [List.reverse_reverse] at h2
          exact List.noConfusion h2
        · intro c hc
          have : c ∈ d :: drest := List.mem_reverse.mp hc
          have : c ∈ B.reverse := by
            have h2 : c ∈ B.reverse.dropWhile (· == '0') := by
              rw [hD]; exact this
            exact (List.dropWhile_sublist _).subset h2
          exact hBrev c this
        · rw [show (d :: drest).reverse.getLast? =
            (d :: drest).reverse.reverse.head? from
              (List.head?_reverse _).symm, List.reverse_reverse]
          intro h
          rw [show (d :: drest).head? = some d from rfl] at h
          cases h
          exact absurd rfl (ne_of_beq_false hdne)
    · -- the fraction does not end in a zero: nothing is stripped
      have hns : fracZeroStrippable (A ++ '.' :: B) = false := by
        rw [hfzs]
        cases hbe : (b0 == '0')
        · rfl
        · exact absurd (by simpa using hbe) hb0
      right
      refine ⟨B, ?_, ?_, hB, ?_⟩
      · rw [stripFracZeros, hns]
        rw [show (if (false : Bool) = true then
            ((A ++ '.' :: B).reverse.dropWhile (· == '0')).reverse
          else A ++ '.' :: B) = A ++ '.' :: B from rfl]
        refine stripDotEnd_of_head_ne _ b0 (brest ++ '.' :: A.reverse) ?_
          (digit_ne b0 hb0dig).2.2.1
        rw [hrev, hBr, List.cons_append]
      · intro hBnil
        rw [hBnil] at hBr
        exact List.noConfusion hBr
      · rw [show B.getLast? = B.reverse.head? from (List.head?_reverse _).symm,
          hBr]
        intro h
        rw [show (b0 :: brest).head? = some b0 from rfl] at h
        cases h
        exact hb0 rfl

/-- `stripLeadingZeros` on a word whose head is not a zero. -/
theorem stripLeadingZeros_of_head_ne (a : Char) (tl : List Char)
    (ha : a ≠ '0') : stripLeadingZeros (a :: tl) = a :: tl := by
  rw [stripLeadingZeros.eq_def]
  split
  · rename_i heq
    rw [List.cons.injEq] at heq
    exact absurd heq.1 ha
  · rfl

/-- `stripLeadingZeros` steps over a leading zero before a digit. -/
theorem stripLeadingZeros_cons_cons (b : Char) (rest : List Char) :
    stripLeadingZeros ('0' :: b :: rest) =
      if b.isDigit then stripLeadingZeros (b :: rest) else '0' :: b :: rest := by
  rw [stripLeadingZeros.eq_def]
  rfl

/-- `stripLeadingZeros` fixes a single character. -/
theorem stripLeadingZeros_singleton (c : Char) :
    stripLeadingZeros [c] = [c] := by
  rw [stripLeadingZeros.eq_def]
  split
  · rename_i heq
    exact absurd heq (by rintro ⟨⟩)
  · rfl

/-- `stripLeadingZeros` only removes characters. -/
theorem stripLeadingZeros_subset : (l : List Char) →
    ∀ x ∈ stripLeadingZeros l, x ∈ l
  | [] => fun x hx => hx
  | [c] => fun x hx => by rwa [stripLeadingZeros_singleton] at hx
  | a :: b :: rest => by
    by_cases ha : a = '0'
    · subst ha
      rw [stripLeadingZeros_cons_cons]
      by_cases hb : b.isDigit = true
      · rw [if_pos hb]
        intro x hx
        exact List.mem_cons_of_mem _ (stripLeadingZeros_subset (b :: rest) x hx)
      · rw [if_neg hb]
        exact fun x hx => hx
    · rw [stripLeadingZeros_of_head_ne a (b :: rest) ha]
      exact fun x hx => hx

/-- `stripLeadingZeros` never empties a non-empty word. -/
theorem stripLeadingZeros_ne_nil : (l : List Char) → l ≠ [] →
    stripLeadingZeros l ≠ []
  | [], h => absurd rfl h
  | [c], _ => by
    rw [stripLeadingZeros_singleton]
    exact fun h => List.noConfusion h
  | a :: b :: rest, _ => by
    by_cases ha : a = '0'
    · subst ha
      rw [stripLeadingZeros_cons_cons]
      by_cases hb : b.isDigit = true
      · rw [if_pos hb]
        exact stripLeadingZeros_ne_nil (b :: rest) (fun h => List.noConfusion h)
      · rw [if_neg hb]
        exact fun h => List.noConfusion h
    · rw [stripLeadingZeros_of_head_ne a (b :: rest) ha]
      exact fun h => List.noConfusion h

/-- `stripLeadingZeros` on an all-digit prefix before a dot keeps a
non-empty prefix remainder and the dot and tail intact. -/
theorem stripLeadingZeros_dotted : (A : List Char) → (B : List Char) →
    A ≠ [] → (∀ c ∈ A, c.isDigit = true) →
    ∃ A', stripLeadingZeros (A ++ '.' :: B) = A' ++ '.' :: B ∧ A' ≠ [] ∧
      ∀ c ∈ A', c ∈ A
  | [], _, hne, _ => absurd rfl hne
  | [a], B, _, _ => by
    by_cases ha : a = '0'
    · subst ha
      refine ⟨['0'], ?_, fun h => List.noConfusion h, fun c hc => hc⟩
      show stripLeadingZeros ('0' :: '.' :: B) = '0' :: '.' :: B
      rw [stripLeadingZeros_cons_cons, if_neg (by decide)]
    · refine ⟨[a], ?_, fun h => List.noConfusion h, fun c hc => hc⟩
      show stripLeadingZeros (a :: '.' :: B) = a :: '.' :: B
      exact stripLeadingZeros_of_head_ne a ('.' :: B) ha
  | a :: a2 :: A'', B, _, hAd => by
    by_cases ha : a = '0'
    · subst ha
      have ha2 : a2.isDigit = true := hAd a2 (by simp)
      obtain ⟨A', h1, h2, h3⟩ := stripLeadingZeros_dotted (a2 :: A'') B
        (fun h => List.noConfusion h)
        (fun c hc => hAd c (List.mem_cons_of_mem _ hc))
      refine ⟨A', ?_, h2, fun c hc => List.mem_cons_of_mem _ (h3 c hc)⟩
      show stripLeadingZeros ('0' :: a2 :: (A'' ++ '.' :: B)) = A' ++ '.' :: B
      rw [stripLeadingZeros_cons_cons, if_pos ha2]
      exact h1
    · refine ⟨a :: a2 :: A'', ?_, fun h => List.noConfusion h, fun c hc => hc⟩
      show stripLeadingZeros (a :: a2 :: (A'' ++ '.' :: B)) =
        a :: a2 :: (A'' ++ '.' :: B)
      exact stripLeadingZeros_of_head_ne a (a2 :: (A'' ++ '.' :: B)) ha

/-- `stripFracZeros` only removes characters. -/
theorem stripFracZeros_subset (l : List Char) :
    ∀ x ∈ stripFracZeros l, x ∈ l := by
  intro x hx
  rw [stripFracZeros] at hx
  by_cases h : fracZeroStrippable l = true
  · rw [if_pos h] at hx
    rw [List.mem_reverse] at hx
    exact List.mem_reverse.mp ((List.dropWhile_sublist _).subset hx)
  · rwa [if_neg h] at hx

/-- `stripDotEnd` only removes characters. -/
theorem stripDotEnd_subset (l : List Char) : ∀ x ∈ stripDotEnd l, x ∈ l := by
  intro x hx
  rw [stripDotEnd] at hx
  split at hx
  · rename_i r heq
    rw [List.mem_reverse] at hx
    have h2 : x ∈ l.reverse := by
      rw [heq]
      exact List.mem_cons_of_mem _ hx
    exact List.mem_reverse.mp h2
  · exact hx

/-- A character absent from a list is not contained in it. -/
theorem contains_eq_false_of_not_mem (l : List Char) (c : Char) (h : c ∉ l) :
    l.contains c = false := by
  cases hc : l.contains c
  · rfl
  · exact absurd (List.elem_iff.mp hc) h

/-- `parseSignSplit` consumes nothing when the head is not a sign. -/
theorem parseSignSplit_of_head_ne (c : Char) (rest : List Char)
    (h1 : c ≠ '-') (h2 : c ≠ '+') :
    parseSignSplit (c :: rest) = (false, c :: rest) := by
  rw [parseSignSplit.eq_def]
  split
  · rename_i heq
    injection heq with h3 _
    exact absurd h3 h1
  · rename_i heq
    injection heq with h3 _
    exact absurd h3 h2
  · rfl

/-- `parseSignSplit` reads off the optional minus sign in front of a
digit. -/
theorem parseSignSplit_sign (neg : Bool) (a : Char) (t : List Char)
    (ha : a.isDigit = true) :
    parseSignSplit ((if neg then ['-'] else []) ++ a :: t) = (neg, a :: t) := by
  cases neg
  · have hd := digit_ne a ha
    exact parseSignSplit_of_head_ne a t hd.1 hd.2.1
  · rfl

/-- `takeWhile` keeps a list all of whose characters satisfy the
predicate. -/
theorem takeWhile_all (p : Char → Bool) : (l : List Char) →
    (∀ c ∈ l, p c = true) → l.takeWhile p = l
  | [], _ => rfl
  | c :: rest, h => by
    rw [List.takeWhile_cons_of_pos (h c (List.mem_cons_self _ _)),
      takeWhile_all p rest (fun x hx => h x (List.mem_cons_of_mem _ hx))]

/-- `takeWhile` takes nothing when the head (if any) fails the
predicate. -/
theorem takeWhile_eq_nil_of_head (p : Char → Bool) (l : List Char)
    (h : ∀ c, l.head? = some c → p c = false) : l.takeWhile p = [] := by
  cases l with
  | nil => rfl
  | cons c rest =>
    exact List.takeWhile_cons_of_neg (by rw [h c rfl]; exact Bool.false_ne_true)

/-- `takeWhile` passes over a prefix of satisfying characters. -/
theorem takeWhile_append_all (p : Char → Bool) : (a b : List Char) →
    (∀ c ∈ a, p c = true) → (a ++ b).takeWhile p = a ++ b.takeWhile p
  | [], _, _ => rfl
  | x :: xs, b, h => by
    rw [List.cons_append, List.takeWhile_cons_of_pos (h x (List.mem_cons_self _ _)),
      takeWhile_append_all p xs b (fun c hc => h c (List.mem_cons_of_mem _ hc))]
    rfl

/-- The digit run of a word made of digits followed by a non-digit is
exactly the digit prefix. -/
theorem digits_split_exact (a b : List Char)
    (ha : ∀ c ∈ a, c.isDigit = true)
    (hb : ∀ c, b.head? = some c → c.isDigit = false) :
    (a ++ b).takeWhile Char.isDigit = a ∧
      (a ++ b).dropWhile Char.isDigit = b :=
  ⟨by rw [takeWhile_append_all _ _ _ ha, takeWhile_eq_nil_of_head _ b hb,
      List.append_nil],
   by rw [List.dropWhile_append_of_pos ha]
      exact dropWhile_eq_self_of_head _ b hb⟩

/-- Completeness of the scientific-notation parser on a built word,
with the exponent-sign character abstracted. -/
theorem parseSci_core (neg : Bool) (a : Char) (ip' fp : List Char)
    (e0 : Char) (eneg : Bool) (b : Char) (ed' : List Char)
    (ha : a.isDigit = true) (hip' : ∀ c ∈ ip', c.isDigit = true)
    (hfp : fp = [] ∨ (fp ≠ [] ∧ ∀ c ∈ fp, c.isDigit = true))
    (hb : b.isDigit = true) (hed' : ∀ c ∈ ed', c.isDigit = true)
    (hess : parseSignSplit (e0 :: b :: ed') = (eneg, b :: ed')) :
    parseSci ((if neg then ['-'] else []) ++ a :: (ip' ++
        ((if fp.isEmpty then [] else '.' :: fp) ++ 'e' ::
          e0 :: b :: ed'))) =
      some (neg, a :: ip', fp,
        if eneg then -(digitsToNat (b :: ed') : Int)
        else (digitsToNat (b :: ed') : Int)) := by
  have hedtw : (b :: ed').takeWhile Char.isDigit = b :: ed' :=
    takeWhile_all _ _ (fun c hc => by
      rcases List.mem_cons.mp hc with h | h
      · subst h; exact hb
      · exact hed' c h)
  have heddw : (b :: ed').dropWhile Char.isDigit = [] := by
    rw [List.dropWhile_eq_nil_iff]
    intro c hc
    rcases List.mem_cons.mp hc with h | h
    · subst h; exact hb
    · exact hed' c h
  rcases hfp with h | ⟨hne, hfpd⟩
  · subst h
    have hss := parseSignSplit_sign neg a
      (ip' ++ ('e' :: e0 :: b :: ed')) ha
    have hsplit := digits_split_exact ip'
      ('e' :: e0 :: b :: ed') hip'
      (by intro c hc; injection hc with hc; subst hc; decide)
    simp [parseSci, hss, hsplit.1, hsplit.2, hess, hedtw, heddw,
      List.takeWhile_cons_of_pos ha, List.dropWhile_cons_of_pos ha]
  · cases fp with
    | nil => exact absurd rfl hne
    | cons f0 frest =>
      have hss := parseSignSplit_sign neg a
        (ip' ++ ('.' :: (f0 :: frest) ++ 'e' :: e0 :: b :: ed')) ha
      have hsplit := digits_split_exact ip'
        ('.' :: (f0 :: frest) ++ 'e' :: e0 :: b :: ed') hip'
        (by intro c hc; injection hc with hc; subst hc; decide)
      have hfsplit := digits_split_exact (f0 :: frest)
        ('e' :: e0 :: b :: ed') hfpd
        (by intro c hc; injection hc with hc; subst hc; decide)
      simp only [List.cons_append, List.append_assoc] at hss hsplit hfsplit
      simp [parseSci, hss, hsplit.1, hsplit.2, hfsplit.1, hfsplit.2,
        hess, hedtw, heddw,
        List.takeWhile_cons_of_pos ha, List.dropWhile_cons_of_pos ha]

/-- Completeness of the scientific-notation parser on a built word. -/
theorem parseSci_built (neg : Bool) (a : Char) (ip' fp : List Char)
    (es : Bool) (b : Char) (ed' : List Char)
    (ha : a.isDigit = true) (hip' : ∀ c ∈ ip', c.isDigit = true)
    (hfp : fp = [] ∨ (fp ≠ [] ∧ ∀ c ∈ fp, c.isDigit = true))
    (hb : b.isDigit = true) (hed' : ∀ c ∈ ed', c.isDigit = true) :
    parseSci ((if neg then ['-'] else []) ++ a :: (ip' ++
        ((if fp.isEmpty then [] else '.' :: fp) ++ 'e' ::
          ((if es then '-' else '+') :: b :: ed')))) =
      some (neg, a :: ip', fp, sciExpVal es (b :: ed')) := by
  cases es
  · exact parseSci_core neg a ip' fp '+' false b ed' ha hip' hfp hb hed' rfl
  · exact parseSci_core neg a ip' fp '-' true b ed' ha hip' hfp hb hed' rfl

/-- The scientific-notation parser recovers exactly the parts a
scientific `String(n)` rendering was built from. -/
theorem parseSci_mkSci (neg : Bool) (ip fp : List Char) (es : Bool)
    (ed : List Char) (hip : DigitStr ip) (hfp : fp = [] ∨ DigitStr fp)
    (hed : DigitStr ed) :
    parseSci (mkSci neg ip fp es ed).data = some (neg, ip, fp, sciExpVal es ed) := by
  obtain ⟨hipne, hipd⟩ := hip
  obtain ⟨hedne, hedd⟩ := hed
  cases ip with
  | nil => exact absurd rfl hipne
  | cons a ip' =>
    cases ed with
    | nil => exact absurd rfl hedne
    | cons b ed' =>
      have hfp' : fp = [] ∨ (fp ≠ [] ∧ ∀ c ∈ fp, c.isDigit = true) := by
        rcases hfp with h | ⟨h1, h2⟩
        · exact Or.inl h
        · exact Or.inr ⟨h1, h2⟩
      rw [show (mkSci neg (a :: ip') fp es (b :: ed')).data =
        (((if neg then ['-'] else []) ++ (a :: ip')) ++
          (if fp.isEmpty then [] else '.' :: fp)) ++
          ('e' :: (if es then '-' else '+') :: b :: ed') from rfl,
        List.append_assoc, List.append_assoc, List.cons_append]
      exact parseSci_built neg a ip' fp es b ed'
        (hipd a (List.mem_cons_self _ _))
        (fun c hc => hipd c (List.mem_cons_of_mem _ hc)) hfp'
        (hedd b (List.mem_cons_self _ _))
        (fun c hc => hedd c (List.mem_cons_of_mem _ hc))

/-- The clean-up of an expanded mantissa that contains a decimal point:
the result is made of digits and at most one dot, is non-empty, starts
with a digit, and if a dot survives the word neither ends in `0` nor in
the dot. -/
theorem finishExpanded_dotted (A B : List Char) (hAne : A ≠ [])
    (hAd : ∀ c ∈ A, c.isDigit = true) (hB : ∀ c ∈ B, c.isDigit = true) :
    (∀ c ∈ finishExpanded (A ++ '.' :: B), c.isDigit = true ∨ c = '.') ∧
      finishExpanded (A ++ '.' :: B) ≠ [] ∧
      ('.' ∈ finishExpanded (A ++ '.' :: B) →
        (finishExpanded (A ++ '.' :: B)).getLast? ≠ some '0' ∧
          (finishExpanded (A ++ '.' :: B)).getLast? ≠ some '.') ∧
      (∃ a, (finishExpanded (A ++ '.' :: B)).head? = some a ∧
        a.isDigit = true) := by
  obtain ⟨A', h1, h2, h3⟩ := stripLeadingZeros_dotted A B hAne hAd
  have hA'd : ∀ c ∈ A', c.isDigit = true := fun c hc => hAd c (h3 c hc)
  have hcont : (A' ++ '.' :: B).contains '.' = true :=
    List.elem_iff.mpr (List.mem_append.mpr (Or.inr (List.mem_cons_self _ _)))
  have hfe : finishExpanded (A ++ '.' :: B) =
      stripDotEnd (stripFracZeros (A' ++ '.' :: B)) := by
    rw [show finishExpanded (A ++ '.' :: B) =
      (if (stripLeadingZeros (A ++ '.' :: B)).contains '.' then
        stripDotEnd (stripFracZeros (stripLeadingZeros (A ++ '.' :: B)))
      else stripLeadingZeros (A ++ '.' :: B)) from rfl]
    rw [h1, if_pos hcont]
  rw [hfe]
  rcases strip_result A' B hB with hL | ⟨B', hE, hB'ne, hB'd, hB'l⟩
  · rw [hL]
    refine ⟨fun c hc => Or.inl (hA'd c hc), h2, fun hdot => ?_, ?_⟩
    · exact absurd (hA'd '.' hdot) (by decide)
    · cases hA : A' with
      | nil => exact absurd hA h2
      | cons a t =>
        exact ⟨a, rfl,
          hA'd a (by rw [hA]; exact List.mem_cons_self _ _)⟩
  · rw [hE]
    have hgl : (A' ++ '.' :: B').getLast? = B'.getLast? := by
      rw [List.getLast?_append_of_ne_nil _ (fun h => List.noConfusion h),
        show ('.' :: B') = ['.'] ++ B' from rfl,
        List.getLast?_append_of_ne_nil _ hB'ne]
    refine ⟨?_, ?_, fun _ => ?_, ?_⟩
    · intro c hc
      rcases List.mem_append.mp hc with h | h
      · exact Or.inl (hA'd c h)
      · rcases List.mem_cons.mp h with h | h
        · exact Or.inr h
        · exact Or.inl (hB'd c h)
    · cases hA : A' with
      | nil => exact absurd hA h2
      | cons a t =>
        exact fun hh => List.noConfusion hh
    · rw [hgl]
      refine ⟨hB'l, fun hd => ?_⟩
      exact absurd (hB'd '.' (List.mem_of_mem_getLast? (Option.mem_def.mpr hd)))
        (by decide)
    · cases hA : A' with
      | nil => exact absurd hA h2
      | cons a t =>
        exact ⟨a, rfl,
          hA'd a (by rw [hA]; exact List.mem_cons_self _ _)⟩

/-- The clean-up of an expanded all-digit mantissa: a non-empty word of
digits that starts with a digit and contains no dot. -/
theorem finishExpanded_digits (L : List Char) (hL : L ≠ [])
    (hLd : ∀ c ∈ L, c.isDigit = true) :
    (∀ c ∈ finishExpanded L, c.isDigit = true ∨ c = '.') ∧
      finishExpanded L ≠ [] ∧
      ('.' ∈ finishExpanded L → (finishExpanded L).getLast? ≠ some '0' ∧
        (finishExpanded L).getLast? ≠ some '.') ∧
      (∃ a, (finishExpanded L).head? = some a ∧ a.isDigit = true) := by
  have hsub := stripLeadingZeros_subset L
  have hcont : (stripLeadingZeros L).contains '.' = false :=
    contains_eq_false_of_not_mem _ _ (fun hm =>
      absurd (hLd '.' (hsub '.' hm)) (by decide))
  have hcond : ¬((stripLeadingZeros L).contains '.' = true) := by
    rw [hcont]
    exact Bool.false_ne_true
  rw [show finishExpanded L =
    (if (stripLeadingZeros L).contains '.' then
      stripDotEnd (stripFracZeros (stripLeadingZeros L))
    else stripLeadingZeros L) from rfl]
  rw [if_neg hcond]
  refine ⟨fun c hc => Or.inl (hLd c (hsub c hc)),
    stripLeadingZeros_ne_nil L hL, fun hdot => ?_, ?_⟩
  · exact absurd (hLd '.' (hsub '.' hdot)) (by decide)
  · cases hA : stripLeadingZeros L with
    | nil => exact absurd hA (stripLeadingZeros_ne_nil L hL)
    | cons a t =>
      refine ⟨a, rfl, hLd a (hsub a ?_)⟩
      rw [hA]
      exact List.mem_cons_self _ _

/-- Prepending the sign to a cleaned mantissa: the properties the
specification states of the number encoder output. -/
theorem signed_shape (neg : Bool) (r : List Char)
    (h1 : ∀ c ∈ r, c.isDigit = true ∨ c = '.')
    (h2 : r ≠ [])
    (h3 : '.' ∈ r → r.getLast? ≠ some '0' ∧ r.getLast? ≠ some '.')
    (h4 : ∃ a, r.head? = some a ∧ a.isDigit = true) :
    (∀ c ∈ (if neg then ['-'] else []) ++ r, c ≠ 'e' ∧ c ≠ 'E') ∧
      ('.' ∈ (if neg then ['-'] else []) ++ r →
        ((if neg then ['-'] else []) ++ r).getLast? ≠ some '0' ∧
          ((if neg then ['-'] else []) ++ r).getLast? ≠ some '.') ∧
      ((if neg then ['-'] else []) ++ r) ≠ [] ∧
      (((if neg then ['-'] else []) ++ r).head? = some '-' ↔ neg = true) := by
  have hgl : ((if neg then ['-'] else []) ++ r).getLast? = r.getLast? :=
    List.getLast?_append_of_ne_nil _ h2
  refine ⟨?_, ?_, ?_, ?_⟩
  · intro c hc
    rcases List.mem_append.mp hc with hm | hm
    · cases neg
      · exact absurd hm (List.not_mem_nil c)
      · rw [List.mem_singleton.mp hm]
        exact ⟨by decide, by decide⟩
    · rcases h1 c hm with hd | hd
      · exact ⟨(digit_ne c hd).2.2.2.1, (digit_ne c hd).2.2.2.2⟩
      · subst hd
        exact ⟨by decide, by decide⟩
  · intro hdot
    have hdr : '.' ∈ r := by
      rcases List.mem_append.mp hdot with hm | hm
      · cases neg
        · exact absurd hm (List.not_mem_nil _)
        · exact absurd (List.mem_singleton.mp hm) (by decide)
      · exact hm
    rw [hgl]
    exact h3 hdr
  · intro hh
    exact h2 (List.append_eq_nil.mp hh).2
  · obtain ⟨a, ha, had⟩ := h4
    cases neg
    · constructor
      · intro hh
        have hh' : r.head? = some '-' := hh
        have hae : a = '-' := by
          have h5 := ha.symm.trans hh'
          injection h5
        rw [hae] at had
        exact absurd had (by decide)
      · intro hh
        exact Bool.noConfusion hh
    · exact ⟨fun _ => rfl, fun _ => rfl⟩

/-- The signed shape for an all-digit mantissa. -/
theorem signed_digits_shape (neg : Bool) (ip : List Char) (hipne : ip ≠ [])
    (hipd : ∀ c ∈ ip, c.isDigit = true) :
    (∀ c ∈ (if neg then ['-'] else []) ++ ip, c ≠ 'e' ∧ c ≠ 'E') ∧
      ('.' ∈ (if neg then ['-'] else []) ++ ip →
        ((if neg then ['-'] else []) ++ ip).getLast? ≠ some '0' ∧
          ((if neg then ['-'] else []) ++ ip).getLast? ≠ some '.') ∧
      ((if neg then ['-'] else []) ++ ip) ≠ [] ∧
      (((if neg then ['-'] else []) ++ ip).head? = some '-' ↔ neg = true) :=
  signed_shape neg ip (fun c hc => Or.inl (hipd c hc)) hipne
    (fun hdot => absurd (hipd '.' hdot) (by decide))
    (by
      cases ip with
      | nil => exact absurd rfl hipne
      | cons a t => exact ⟨a, rfl, hipd a (List.mem_cons_self _ _)⟩)

/-- The number encoder on a rendering with no exponent marker: only the
two trailing clean-up replaces run, and only when a dot is present. -/
theorem encodeNumberCanonical_noE (s : String)
    (he : s.data.contains 'e' = false) (hE : s.data.contains 'E' = false) :
    encodeNumberCanonical (.finite s) =
      if s.data.contains '.' then
        (⟨stripDotEnd (stripFracZeros s.data)⟩ : String)
      else s := by
  rw [show encodeNumberCanonical (.finite s) =
    if ¬(s.data.contains 'e' ∨ s.data.contains 'E') then
      (if s.data.contains '.' then
        (⟨stripDotEnd (stripFracZeros s.data)⟩ : String)
      else s)
    else _ from rfl]
  rw [if_pos (by rw [he, hE]; simp)]

/-- The number encoder on a rendering with an exponent marker that the
scientific parser accepts: the expansion paths, written out. -/
theorem encodeNumberCanonical_sci (s : String) (neg : Bool)
    (ip fp : List Char) (exp : Int)
    (hcont : s.data.contains 'e' = true ∨ s.data.contains 'E' = true)
    (hp : parseSci s.data = some (neg, ip, fp, exp)) :
    encodeNumberCanonical (.finite s) =
      if ((ip.length : Int) + exp) ≤ 0 then
        (if ((ip ++ fp).dropWhile (· == '0')).isEmpty then ("0" : String)
         else ⟨(if neg then ['-'] else []) ++ finishExpanded
           ('0' :: '.' :: (List.replicate (-((ip.length : Int) + exp)).toNat '0' ++
             (ip ++ fp).dropWhile (· == '0')))⟩)
      else if ((ip ++ fp).length : Int) ≤ (ip.length : Int) + exp then
        ⟨(if neg then ['-'] else []) ++ finishExpanded
          ((ip ++ fp) ++
            List.replicate ((((ip.length : Int) + exp) -
              ((ip ++ fp).length : Int)).toNat) '0')⟩
      else
        ⟨(if neg then ['-'] else []) ++ finishExpanded
          ((ip ++ fp).take ((ip.length : Int) + exp).toNat ++
            '.' :: (ip ++ fp).drop ((ip.length : Int) + exp).toNat)⟩ := by
  rw [show encodeNumberCanonical (.finite s) =
    if ¬(s.data.contains 'e' ∨ s.data.contains 'E') then _
    else _ from rfl]
  rw [if_neg (fun h => h hcont)]
  rw [hp]

/-- The number encoder output shape on a plain (non-scientific) finite
rendering: no exponent marker, no trailing fractional zero and no bare
trailing dot, non-empty, and the sign preserved. -/
theorem encodeNumber_plain_shape (neg : Bool) (ip fp : List Char)
    (hip : DigitStr ip) (hfp : fp = [] ∨ DigitStr fp) :
    (∀ c ∈ (encodeNumberCanonical (.finite (mkPlain neg ip fp))).data,
        c ≠ 'e' ∧ c ≠ 'E') ∧
      ('.' ∈ (encodeNumberCanonical (.finite (mkPlain neg ip fp))).data →
        (encodeNumberCanonical (.finite (mkPlain neg ip fp))).data.getLast? ≠
            some '0' ∧
          (encodeNumberCanonical (.finite (mkPlain neg ip fp))).data.getLast? ≠
            some '.') ∧
      (encodeNumberCanonical (.finite (mkPlain neg ip fp))).data ≠ [] ∧
      ((encodeNumberCanonical (.finite (mkPlain neg ip fp))).data.head? =
          some '-' ↔ neg = true) := by
  obtain ⟨hipne, hipd⟩ := hip
  have hdata : (mkPlain neg ip fp).data =
      ((if neg then ['-'] else []) ++ ip) ++
        (if fp.isEmpty then [] else '.' :: fp) := rfl
  have hcls : ∀ c ∈ (mkPlain neg ip fp).data,
      c = '-' ∨ c.isDigit = true ∨ c = '.' := by
    intro c hc
    rw [hdata] at hc
    rcases List.mem_append.mp hc with h | h
    · rcases List.mem_append.mp h with h | h
      · cases neg
        · exact absurd h (List.not_mem_nil c)
        · exact Or.inl (List.mem_singleton.mp h)
      · exact Or.inr (Or.inl (hipd c h))
    · by_cases hie : fp.isEmpty = true
      · rw [if_pos hie] at h
        exact absurd h (List.not_mem_nil c)
      · rw [if_neg hie] at h
        rcases List.mem_cons.mp h with h | h
        · exact Or.inr (Or.inr h)
        · rcases hfp with h2 | ⟨_, hfpd⟩
          · subst h2
            exact absurd rfl hie
          · exact Or.inr (Or.inl (hfpd c h))
  have hnoe : (mkPlain neg ip fp).data.contains 'e' = false :=
    contains_eq_false_of_not_mem _ _ (fun hm => by
      rcases hcls 'e' hm with h | h | h
      · exact absurd h (by decide)
      · exact absurd h (by decide)
      · exact absurd h (by decide))
  have hnoE : (mkPlain neg ip fp).data.contains 'E' = false :=
    contains_eq_false_of_not_mem _ _ (fun hm => by
      rcases hcls 'E' hm with h | h | h
      · exact absurd h (by decide)
      · exact absurd h (by decide)
      · exact absurd h (by decide))
  rw [encodeNumberCanonical_noE _ hnoe hnoE]
  rcases hfp with h2 | ⟨hfpne, hfpd⟩
  · subst h2
    have hclsd : ∀ c ∈ (mkPlain neg ip []).data, c = '-' ∨ c.isDigit = true := by
      intro c hc
      have hc' : c ∈ ((if neg then ['-'] else []) ++ ip) ++ ([] : List Char) := hc
      rw [List.append_nil] at hc'
      rcases List.mem_append.mp hc' with h | h
      · cases neg
        · exact absurd h (List.not_mem_nil c)
        · exact Or.inl (List.mem_singleton.mp h)
      · exact Or.inr (hipd c h)
    have hnod : (mkPlain neg ip []).data.contains '.' = false :=
      contains_eq_false_of_not_mem _ _ (fun hm => by
        rcases hclsd '.' hm with h | h
        · exact absurd h (by decide)
        · exact absurd h (by decide))
    have hcond : ¬((mkPlain neg ip []).data.contains '.' = true) := by
      rw [hnod]
      exact Bool.false_ne_true
    rw [if_neg hcond]
    have hdata1 : (mkPlain neg ip []).data = (if neg then ['-'] else []) ++ ip := by
      rw [hdata, show (if ([] : List Char).isEmpty then ([] : List Char)
        else '.' :: []) = [] from rfl, List.append_nil]
    rw [hdata1]
    exact signed_digits_shape neg ip hipne hipd
  · have hie : fp.isEmpty = false := List.isEmpty_eq_false.mpr hfpne
    have hdata2 : (mkPlain neg ip fp).data =
        ((if neg then ['-'] else []) ++ ip) ++ '.' :: fp := by
      rw [hdata, hie, if_neg Bool.false_ne_true]
    have hdot : (mkPlain neg ip fp).data.contains '.' = true := by
      apply List.elem_iff.mpr
      rw [hdata2]
      exact List.mem_append.mpr (Or.inr (List.mem_cons_self _ _))
    rw [if_pos hdot]
    have hmk : ∀ (L : List Char), (String.mk L).data = L := fun _ => rfl
    rw [hmk, hdata2]
    rcases strip_result ((if neg then ['-'] else []) ++ ip) fp hfpd with
      hL | ⟨B', hE, hB'ne, hB'd, hB'l⟩
    · rw [hL]
      exact signed_digits_shape neg ip hipne hipd
    · rw [hE, List.append_assoc]
      refine signed_shape neg (ip ++ '.' :: B') ?_ ?_ ?_ ?_
      · intro c hc
        rcases List.mem_append.mp hc with h | h
        · exact Or.inl (hipd c h)
        · rcases List.mem_cons.mp h with h | h
          · exact Or.inr h
          · exact Or.inl (hB'd c h)
      · intro hh
        exact hipne (List.append_eq_nil.mp hh).1
      · intro _
        have hgl : (ip ++ '.' :: B').getLast? = B'.getLast? := by
          rw [List.getLast?_append_of_ne_nil _ (fun hh => List.noConfusion hh),
            show ('.' :: B') = ['.'] ++ B' from rfl,
            List.getLast?_append_of_ne_nil _ hB'ne]
        rw [hgl]
        refine ⟨hB'l, fun hd => ?_⟩
        exact absurd (hB'd '.' (List.mem_of_mem_getLast? (Option.mem_def.mpr hd)))
          (by decide)
      · cases hipc : ip with
        | nil => exact absurd hipc hipne
        | cons a t =>
          exact ⟨a, rfl, hipd a (by rw [hipc]; exact List.mem_cons_self _ _)⟩

/-- The number encoder output shape on a scientific rendering with a
non-zero mantissa: the expansion produces plain decimal text with no
exponent marker, no redundant trailing zeros, and the sign preserved. -/
theorem encodeNumber_sci_shape (neg : Bool) (ip fp : List Char) (es : Bool)
    (ed : List Char) (hip : DigitStr ip) (hfp : fp = [] ∨ DigitStr fp)
    (hed : DigitStr ed) (hnz : ∃ c ∈ ip ++ fp, ¬c = '0') :
    (∀ c ∈ (encodeNumberCanonical (.finite (mkSci neg ip fp es ed))).data,
        c ≠ 'e' ∧ c ≠ 'E') ∧
      ('.' ∈ (encodeNumberCanonical (.finite (mkSci neg ip fp es ed))).data →
        (encodeNumberCanonical
            (.finite (mkSci neg ip fp es ed))).data.getLast? ≠ some '0' ∧
          (encodeNumberCanonical
            (.finite (mkSci neg ip fp es ed))).data.getLast? ≠ some '.') ∧
      (encodeNumberCanonical (.finite (mkSci neg ip fp es ed))).data ≠ [] ∧
      ((encodeNumberCanonical (.finite (mkSci neg ip fp es ed))).data.head? =
          some '-' ↔ neg = true) := by
  have hipne : ip ≠ [] := hip.1
  have hipd : ∀ c ∈ ip, c.isDigit = true := hip.2
  have hce : (mkSci neg ip fp es ed).data.contains 'e' = true := by
    apply List.elem_iff.mpr
    show 'e' ∈ (((if neg then ['-'] else []) ++ ip) ++
      (if fp.isEmpty then [] else '.' :: fp)) ++
      ('e' :: (if es then '-' else '+') :: ed)
    exact List.mem_append.mpr (Or.inr (List.mem_cons_self _ _))
  have hp := parseSci_mkSci neg ip fp es ed hip hfp hed
  rw [encodeNumberCanonical_sci _ neg ip fp (sciExpVal es ed) (Or.inl hce) hp]
  have hmk : ∀ (L : List Char), (String.mk L).data = L := fun _ => rfl
  have hfpd' : ∀ c ∈ fp, c.isDigit = true := by
    rcases hfp with h | ⟨_, h⟩
    · subst h
      intro c hc
      exact absurd hc (List.not_mem_nil c)
    · exact h
  have hDd : ∀ c ∈ ip ++ fp, c.isDigit = true := by
    intro c hc
    rcases List.mem_append.mp hc with h | h
    · exact hipd c h
    · exact hfpd' c h
  have hDne : ip ++ fp ≠ [] := fun hh => hipne (List.append_eq_nil.mp hh).1
  by_cases h1 : ((ip.length : Int) + sciExpVal es ed) ≤ 0
  · rw [if_pos h1]
    have hstr : ((ip ++ fp).dropWhile (· == '0')) ≠ [] := by
      intro hnil
      rw [List.dropWhile_eq_nil_iff] at hnil
      obtain ⟨c, hc, hc0⟩ := hnz
      exact hc0 (by simpa using hnil c hc)
    have hcond : ¬(((ip ++ fp).dropWhile (· == '0')).isEmpty = true) := by
      intro hh
      rw [List.isEmpty_eq_false.mpr hstr] at hh
      exact Bool.noConfusion hh
    rw [if_neg hcond, hmk]
    have hq := finishExpanded_dotted ['0']
      (List.replicate (-((ip.length : Int) + sciExpVal es ed)).toNat '0' ++
        (ip ++ fp).dropWhile (· == '0'))
      (fun hh => List.noConfusion hh)
      (by
        intro c hc
        rw [List.mem_singleton.mp hc]
        decide)
      (by
        intro c hc
        rcases List.mem_append.mp hc with h | h
        · rw [List.eq_of_mem_replicate h]
          decide
        · exact hDd c ((List.dropWhile_sublist _).subset h))
    exact signed_shape neg _ hq.1 hq.2.1 hq.2.2.1 hq.2.2.2
  · rw [if_neg h1]
    by_cases h3 : (((ip ++ fp).length : Int) ≤ (ip.length : Int) + sciExpVal es ed)
    · rw [if_pos h3, hmk]
      have hq := finishExpanded_digits
        ((ip ++ fp) ++
          List.replicate ((((ip.length : Int) + sciExpVal es ed) -
            ((ip ++ fp).length : Int)).toNat) '0')
        (fun hh => hDne (List.append_eq_nil.mp hh).1)
        (by
          intro c hc
          rcases List.mem_append.mp hc with h | h
          · exact hDd c h
          · rw [List.eq_of_mem_replicate h]
            decide)
      exact signed_shape neg _ hq.1 hq.2.1 hq.2.2.1 hq.2.2.2
    · rw [if_neg h3, hmk]
      have hnp : (0 : Int) < (ip.length : Int) + sciExpVal es ed := not_le.mp h1
      have htne : (ip ++ fp).take ((ip.length : Int) + sciExpVal es ed).toNat ≠
          [] := by
        rw [Ne, List.take_eq_nil_iff]
        intro hh
        rcases hh with hh | hh
        · rw [Int.toNat_eq_zero] at hh
          exact absurd hh (not_le.mpr hnp)
        · exact hDne hh
      have hq := finishExpanded_dotted
        ((ip ++ fp).take ((ip.length : Int) + sciExpVal es ed).toNat)
        ((ip ++ fp).drop ((ip.length : Int) + sciExpVal es ed).toNat)
        htne
        (fun c hc => hDd c ((List.take_sublist _ _).subset hc))
        (fun c hc => hDd c ((List.drop_sublist _ _).subset hc))
      exact signed_shape neg _ hq.1 hq.2.1 hq.2.2.1 hq.2.2.2

/-- C2: for every finite float64, the canonical number encoder emits
plain decimal text: on any plain rendering (optional sign, digits,
optional all-digit fraction) and on any scientific rendering (optional
sign, mantissa with a non-zero digit, `e`, signed exponent digits) the
output has no exponent marker, keeps no redundant trailing fractional
zero and no bare trailing dot, is non-empty, and preserves the sign;
and in particular `1e+21` expands to `1000000000000000000000`, `1.5e-7`
expands to `0.00000015`, negative zero encodes as `0`, and `3.10`
(rendered `3.1`) encodes as `3.1`. -/
theorem number_canonicalization :
    (∀ (neg : Bool) (ip fp : List Char), DigitStr ip → fp = [] ∨ DigitStr fp →
      (∀ c ∈ (encodeNumberCanonical (.finite (mkPlain neg ip fp))).data,
          c ≠ 'e' ∧ c ≠ 'E') ∧
        ('.' ∈ (encodeNumberCanonical (.finite (mkPlain neg ip fp))).data →
          (encodeNumberCanonical
              (.finite (mkPlain neg ip fp))).data.getLast? ≠ some '0' ∧
            (encodeNumberCanonical
              (.finite (mkPlain neg ip fp))).data.getLast? ≠ some '.') ∧
        (encodeNumberCanonical (.finite (mkPlain neg ip fp))).data ≠ [] ∧
        ((encodeNumberCanonical (.finite (mkPlain neg ip fp))).data.head? =
            some '-' ↔ neg = true)) ∧
    (∀ (neg : Bool) (ip fp : List Char) (es : Bool) (ed : List Char),
      DigitStr ip → fp = [] ∨ DigitStr fp → DigitStr ed →
      (∃ c ∈ ip ++ fp, ¬c = '0') →
      (∀ c ∈ (encodeNumberCanonical (.finite (mkSci neg ip fp es ed))).data,
          c ≠ 'e' ∧ c ≠ 'E') ∧
        ('.' ∈ (encodeNumberCanonical (.finite (mkSci neg ip fp es ed))).data →
          (encodeNumberCanonical
              (.finite (mkSci neg ip fp es ed))).data.getLast? ≠ some '0' ∧
            (encodeNumberCanonical
              (.finite (mkSci neg ip fp es ed))).data.getLast? ≠ some '.') ∧
        (encodeNumberCanonical (.finite (mkSci neg ip fp es ed))).data ≠ [] ∧
        ((encodeNumberCanonical (.finite (mkSci neg ip fp es ed))).data.head? =
            some '-' ↔ neg = true)) ∧
    encodeNumberCanonical (.finite "1e+21") = "1000000000000000000000" ∧
    encodeNumberCanonical (.finite "1.5e-7") = "0.00000015" ∧
    encodeNumberCanonical .negZero = "0" ∧
    encodeNumberCanonical (.finite "3.1") = "3.1" :=
  ⟨fun neg ip fp hip hfp => encodeNumber_plain_shape neg ip fp hip hfp,
   fun neg ip fp es ed hip hfp hed hnz =>
     encodeNumber_sci_shape neg ip fp es ed hip hfp hed hnz,
   rfl, rfl, rfl, rfl⟩

/-- Witness for the number-canonicalization theorem at concrete
renderings. -/
theorem number_canonicalization_witness :
    (DigitStr ['3'] ∧ ((['1'] : List Char) = [] ∨ DigitStr ['1'])) ∧
      ((encodeNumberCanonical (.finite (mkPlain false ['3'] ['1']))).data.head? =
          some '-' ↔ false = true) ∧
      encodeNumberCanonical (.finite (mkPlain false ['3'] ['1'])) = "3.1" ∧
      (DigitStr ['1'] ∧ DigitStr ['7'] ∧ (∃ c ∈ ['1'] ++ ['5'], ¬c = '0')) ∧
      (encodeNumberCanonical
          (.finite (mkSci true ['1'] ['5'] true ['7']))).data ≠ [] ∧
      encodeNumberCanonical (.finite (mkSci true ['1'] ['5'] true ['7'])) =
        "-0.00000015" :=
  ⟨⟨⟨by decide, by decide⟩, Or.inr ⟨by decide, by decide⟩⟩,
   (number_canonicalization.1 false ['3'] ['1'] ⟨by decide, by decide⟩
     (Or.inr ⟨by decide, by decide⟩)).2.2.2,
   rfl,
   ⟨⟨by decide, by decide⟩, ⟨by decide, by decide⟩, ⟨'1', by decide, by decide⟩⟩,
   (number_canonicalization.2.1 true ['1'] ['5'] true ['7']
     ⟨by decide, by decide⟩ (Or.inr ⟨by decide, by decide⟩) ⟨by decide, by decide⟩
     ⟨'1', by decide, by decide⟩).2.2.1,
   rfl⟩

end Toon
